import Mathlib

/-!
# Verification of the SmartVoice-Gen frame compositor core

Shallow embedding of `src/components/VideoEditor.tsx`.  JS strings are
modelled as `List Char` (one entry per UTF-16 unit), JS numbers as `ℚ`,
and the canvas text-measurement capability (`ctx.measureText`) as an
explicit function argument.  The transcendental `Math.sin` used by the
slideshow director is likewise passed in as a function argument.
-/

namespace SmartVoice

/-- Per-character weight, from the `if`/`else if` chain of
`generateTextTimingMap` (VideoEditor.tsx lines 29-38). -/
def charWeight (c : Char) : ℚ :=
  if c = '.' ∨ c = '!' ∨ c = '?' ∨ c = ':' ∨ c = ';' then 12
  else if c = ',' then 6
  else if c = '\n' then 25
  else if c = ' ' then 0
  else if 'A' ≤ c ∧ c ≤ 'Z' then 1.2
  else if '0' ≤ c ∧ c ≤ '9' then 1.5
  else 1

/-- The accumulation loop of `generateTextTimingMap`: starting from the
running total `acc`, push the cumulative total after each character and
return the final total (VideoEditor.tsx lines 29-42). -/
def gttmAux (acc : ℚ) : List Char → List ℚ × ℚ
  | [] => ([], acc)
  | c :: cs =>
    let acc' := acc + charWeight c
    let r := gttmAux acc' cs
    (acc' :: r.1, r.2)

/-- `generateTextTimingMap` (VideoEditor.tsx lines 25-45): cumulative
weight per character plus the total weight. -/
def generateTextTimingMap (text : List Char) : List ℚ × ℚ :=
  gttmAux 0 text

/-- Modelled from the spec's weight table (spec §4.1), as a second
definition to compare with the code's `charWeight`:
`.!?:;` → 12, `,` → 6, newline → 25, space → 0, uppercase letter → 1.2,
digit → 1.5, else → 1. -/
def specCharWeight (c : Char) : ℚ :=
  if c ∈ (['.', '!', '?', ':', ';'] : List Char) then 12
  else if c = ',' then 6
  else if c = '\n' then 25
  else if c = ' ' then 0
  else if 'A' ≤ c ∧ c ≤ 'Z' then 1.2
  else if '0' ≤ c ∧ c ≤ '9' then 1.5
  else 1

theorem charWeight_eq_spec (c : Char) : charWeight c = specCharWeight c := by
  simp only [charWeight, specCharWeight, List.mem_cons, List.not_mem_nil, or_false]

theorem charWeight_nonneg (c : Char) : 0 ≤ charWeight c := by
  unfold charWeight
  split
  · norm_num
  · split
    · norm_num
    · split
      · norm_num
      · split
        · norm_num
        · split
          · norm_num
          · split <;> norm_num

theorem gttmAux_fst_length (acc : ℚ) (cs : List Char) :
    (gttmAux acc cs).1.length = cs.length := by
  induction cs generalizing acc with
  | nil => rfl
  | cons c cs ih => simp [gttmAux, ih]

theorem gttmAux_snd (acc : ℚ) (cs : List Char) :
    (gttmAux acc cs).2 = acc + (cs.map charWeight).sum := by
  induction cs generalizing acc with
  | nil => simp [gttmAux]
  | cons c cs ih => simp [gttmAux, ih, add_assoc]

theorem gttmAux_getD (acc : ℚ) (cs : List Char) (i : ℕ) (h : i < cs.length) :
    (gttmAux acc cs).1.getD i 0 = acc + ((cs.take (i + 1)).map charWeight).sum := by
  induction cs generalizing acc i with
  | nil => simp at h
  | cons c cs ih =>
    cases i with
    | zero => simp [gttmAux]
    | succ j =>
      have hj : j < cs.length := by simpa using h
      have hih := ih (acc + charWeight c) j hj
      simp only [gttmAux, List.getD_cons_succ, List.take_succ_cons, List.map_cons,
        List.sum_cons, hih]
      ring

theorem gttmAux_chain_head (acc : ℚ) (cs : List Char) :
    List.Chain' (· ≤ ·) ((gttmAux acc cs).1) ∧
    ∀ y ∈ (gttmAux acc cs).1.head?, acc ≤ y := by
  induction cs generalizing acc with
  | nil => exact ⟨List.chain'_nil, by simp [gttmAux]⟩
  | cons c cs ih =>
    obtain ⟨h1, h2⟩ := ih (acc + charWeight c)
    constructor
    · simp only [gttmAux]
      rw [List.chain'_cons']
      exact ⟨h2, h1⟩
    · simp only [gttmAux, List.head?_cons, Option.mem_def, Option.some.injEq]
      intro y hy
      subst hy
      have := charWeight_nonneg c
      linarith

theorem gttmAux_chain (acc : ℚ) (cs : List Char) :
    List.Chain' (· ≤ ·) ((gttmAux acc cs).1) :=
  (gttmAux_chain_head acc cs).1

theorem gttmAux_last (acc : ℚ) (cs : List Char) (h : cs ≠ []) :
    (gttmAux acc cs).1.getLast? = some (gttmAux acc cs).2 := by
  induction cs generalizing acc with
  | nil => exact absurd rfl h
  | cons c cs ih =>
    cases cs with
    | nil => simp [gttmAux]
    | cons d ds =>
      have h2 : (d :: ds) ≠ ([] : List Char) := by simp
      have := ih (acc + charWeight c) h2
      simp only [gttmAux] at this ⊢
      rw [List.getLast?_cons_cons] at *
      cases hg : (gttmAux (acc + charWeight c + charWeight d) ds).1 with
      | nil =>
        simp only [gttmAux, hg] at this ⊢
        simpa using this
      | cons e es =>
        simp only [gttmAux, hg] at this ⊢
        simpa using this

/-- C1: `generateTextTimingMap` returns one cumulative weight per
character, the sequence is non-decreasing, each cumulative entry is the
sum of the spec's per-character base weights over the prefix (so the
per-character increments follow the table `.!?:;`→12, `,`→6, `\n`→25,
space→0, `A`-`Z`→1.2, `0`-`9`→1.5, else→1), the returned total equals the
sum of all base weights, and for non-empty text the last cumulative entry
equals the total. -/
theorem claim1_timing_map (text : List Char) :
    (generateTextTimingMap text).1.length = text.length ∧
    List.Chain' (· ≤ ·) ((generateTextTimingMap text).1) ∧
    (∀ i, i < text.length →
      (generateTextTimingMap text).1.getD i 0 =
        ((text.take (i + 1)).map specCharWeight).sum) ∧
    (generateTextTimingMap text).2 = (text.map specCharWeight).sum ∧
    (text ≠ [] →
      (generateTextTimingMap text).1.getLast? = some ((generateTextTimingMap text).2)) := by
  have hmap : ∀ l : List Char, l.map charWeight = l.map specCharWeight := by
    intro l
    exact List.map_congr_left fun c _ => charWeight_eq_spec c
  refine ⟨gttmAux_fst_length 0 text, gttmAux_chain 0 text, ?_, ?_, ?_⟩
  · intro i h
    rw [generateTextTimingMap, gttmAux_getD 0 text i h, zero_add, hmap]
  · rw [generateTextTimingMap, gttmAux_snd, zero_add, hmap]
  · intro h
    exact gttmAux_last 0 text h

/-- Witness for C1 at the concrete text `"Hi."`. -/
theorem claim1_timing_map_witness :
    (0 < ("Hi.".toList).length) ∧
    (generateTextTimingMap "Hi.".toList).1.getD 0 0 =
      ((("Hi.".toList).take 1).map specCharWeight).sum :=
  ⟨by decide, (claim1_timing_map "Hi.".toList).2.2.1 0 (by decide)⟩

/-- JS `Array.prototype.findIndex` restricted to rational arrays: the
first index satisfying the predicate, `none` when no element does. -/
def jsFindIndex (p : ℚ → Bool) : List ℚ → Option ℕ
  | [] => none
  | a :: l => if p a then some 0 else (jsFindIndex p l).map (· + 1)

/-- The primary-track character index (VideoEditor.tsx lines 220-225):
clamp the progress, scale by the total weight, and take the first index
whose cumulative weight reaches the target, defaulting to the text
length. -/
def charIndexPrimary (text : List Char) (currentTime totalDuration : ℚ) : ℕ :=
  let m := generateTextTimingMap text
  let rawProgress := min 1 (max 0 (currentTime / totalDuration))
  let targetWeight := rawProgress * m.2
  match jsFindIndex (fun w => targetWeight ≤ w) m.1 with
  | some i => i
  | none => text.length

theorem jsFindIndex_some (p : ℚ → Bool) (l : List ℚ) (i : ℕ)
    (hi : jsFindIndex p l = some i) :
    i < l.length ∧ p (l.getD i 0) = true ∧ ∀ j, j < i → p (l.getD j 0) = false := by
  induction l generalizing i with
  | nil => simp [jsFindIndex] at hi
  | cons a l ih =>
    cases hpa : p a with
    | true =>
      simp only [jsFindIndex, hpa, if_true, Option.some.injEq] at hi
      subst hi
      exact ⟨by simp, by simpa using hpa, fun j hj => absurd hj (Nat.not_lt_zero j)⟩
    | false =>
      simp only [jsFindIndex, hpa, Bool.false_eq_true, if_false,
        Option.map_eq_some'] at hi
      obtain ⟨k, hk, hki⟩ := hi
      obtain ⟨h1, h2, h3⟩ := ih k hk
      subst hki
      refine ⟨by simpa using h1, by simpa using h2, ?_⟩
      intro j hj
      cases j with
      | zero => simpa using hpa
      | succ m =>
        have : m < k := by omega
        simpa using h3 m this

theorem jsFindIndex_none (p : ℚ → Bool) (l : List ℚ)
    (hn : jsFindIndex p l = none) :
    ∀ j, j < l.length → p (l.getD j 0) = false := by
  induction l with
  | nil => simp
  | cons a l ih =>
    cases hpa : p a with
    | true => simp [jsFindIndex, hpa] at hn
    | false =>
      simp only [jsFindIndex, hpa, Bool.false_eq_true, if_false,
        Option.map_eq_none'] at hn
      intro j hj
      cases j with
      | zero => simpa using hpa
      | succ m =>
        have hm : m < l.length := by simpa using hj
        simpa using ih hn m hm

theorem gttm_getD_nonneg (text : List Char) (i : ℕ) (h : i < text.length) :
    0 ≤ (generateTextTimingMap text).1.getD i 0 := by
  rw [generateTextTimingMap, gttmAux_getD 0 text i h, zero_add]
  apply List.sum_nonneg
  intro x hx
  simp only [List.mem_map] at hx
  obtain ⟨c, _, hc⟩ := hx
  exact hc ▸ charWeight_nonneg c

/-- The cumulative entry at `i` plus the weights of the remaining suffix
gives the total. -/
theorem gttm_getD_add_suffix (text : List Char) (i : ℕ) (h : i < text.length) :
    (generateTextTimingMap text).1.getD i 0 +
      ((text.drop (i + 1)).map charWeight).sum = (generateTextTimingMap text).2 := by
  rw [generateTextTimingMap, gttmAux_getD 0 text i h, gttmAux_snd, zero_add, zero_add]
  have := List.take_append_drop (i + 1) text
  calc ((text.take (i + 1)).map charWeight).sum + ((text.drop (i + 1)).map charWeight).sum
      = (((text.take (i + 1)) ++ (text.drop (i + 1))).map charWeight).sum := by
        rw [List.map_append, List.sum_append]
    _ = (text.map charWeight).sum := by rw [this]

/-- The clamped target weight of VideoEditor.tsx lines 222-223:
`rawProgress = clamp(currentTime/totalDuration, 0, 1)` scaled by the
total weight. -/
def targetWeightOf (text : List Char) (currentTime totalDuration : ℚ) : ℚ :=
  min 1 (max 0 (currentTime / totalDuration)) * (generateTextTimingMap text).2

theorem charIndexPrimary_eq (text : List Char) (t D : ℚ) :
    charIndexPrimary text t D =
      match jsFindIndex (fun w => targetWeightOf text t D ≤ w)
          (generateTextTimingMap text).1 with
      | some i => i
      | none => text.length := rfl

/-- Completeness direction for `jsFindIndex`. -/
theorem jsFindIndex_eq_some (p : ℚ → Bool) (l : List ℚ) (i : ℕ)
    (h1 : i < l.length) (h2 : p (l.getD i 0) = true)
    (h3 : ∀ j, j < i → p (l.getD j 0) = false) :
    jsFindIndex p l = some i := by
  induction l generalizing i with
  | nil => simp at h1
  | cons a l ih =>
    cases i with
    | zero =>
      simp only [List.getD_cons_zero] at h2
      simp [jsFindIndex, h2]
    | succ m =>
      have ha : p a = false := by simpa using h3 0 (Nat.succ_pos m)
      have hm1 : m < l.length := by simpa using h1
      have hm2 : p (l.getD m 0) = true := by simpa using h2
      have hm3 : ∀ j, j < m → p (l.getD j 0) = false := by
        intro j hj
        simpa using h3 (j + 1) (by omega)
      simp [jsFindIndex, ha, ih m hm1 hm2 hm3]

theorem getD_mem_drop (l : List Char) (k i : ℕ) (hk : k ≤ i) (h : i < l.length) :
    l.getD i 'a' ∈ l.drop k := by
  induction l generalizing k i with
  | nil => simp at h
  | cons a l ih =>
    cases k with
    | zero =>
      rw [List.drop_zero]
      cases i with
      | zero => simp
      | succ n =>
        rw [List.getD_cons_succ]
        exact List.mem_cons_of_mem a (by simpa using ih 0 n (Nat.zero_le n) (by simpa using h))
    | succ m =>
      cases i with
      | zero => omega
      | succ n =>
        rw [List.drop_succ_cons, List.getD_cons_succ]
        exact ih m n (by omega) (by simpa using h)

theorem mem_drop_getD (l : List Char) (k : ℕ) (c : Char) (hc : c ∈ l.drop k) :
    ∃ j, k ≤ j ∧ j < l.length ∧ c = l.getD j 'a' := by
  induction l generalizing k with
  | nil => simp at hc
  | cons a l ih =>
    cases k with
    | zero =>
      rw [List.drop_zero] at hc
      rcases List.mem_cons.mp hc with h | h
      · exact ⟨0, le_refl 0, by simp, by simp [h]⟩
      · obtain ⟨j, _, hj2, hj3⟩ := ih 0 (by simpa using h)
        exact ⟨j + 1, by omega, by simpa using hj2, by simpa using hj3⟩
    | succ m =>
      rw [List.drop_succ_cons] at hc
      obtain ⟨j, hj1, hj2, hj3⟩ := ih m hc
      exact ⟨j + 1, by omega, by simpa using hj2, by simpa using hj3⟩

theorem sum_map_charWeight_eq_range (l : List Char) :
    (l.map charWeight).sum = ∑ i ∈ Finset.range l.length, charWeight (l.getD i 'a') := by
  induction l with
  | nil => simp
  | cons a l ih =>
    simp only [List.map_cons, List.sum_cons, List.length_cons, ih]
    rw [Finset.sum_range_succ']
    simp [add_comm]

/-- C2: with positive duration and positive total weight, the primary
character index is the first position whose cumulative weight reaches
`clamp(t/D,0,1) * totalWeight` (text length if none qualifies); at
progress 0 the index is 0, and at progress 1 it is the index of the last
nonzero-weight character. -/
theorem claim2_char_index (text : List Char) (t D : ℚ)
    (hD : 0 < D) (hW : 0 < (generateTextTimingMap text).2) :
    (charIndexPrimary text t D ≤ text.length) ∧
    (charIndexPrimary text t D < text.length →
      targetWeightOf text t D ≤
        (generateTextTimingMap text).1.getD (charIndexPrimary text t D) 0 ∧
      ∀ j, j < charIndexPrimary text t D →
        (generateTextTimingMap text).1.getD j 0 < targetWeightOf text t D) ∧
    (charIndexPrimary text t D = text.length →
      ∀ j, j < text.length →
        (generateTextTimingMap text).1.getD j 0 < targetWeightOf text t D) ∧
    (charIndexPrimary text 0 D = 0) ∧
    (∃ i, charIndexPrimary text D D = i ∧ i < text.length ∧
      charWeight (text.getD i 'a') ≠ 0 ∧
      ∀ j, i < j → j < text.length → charWeight (text.getD j 'a') = 0) := by
  have hlen : (generateTextTimingMap text).1.length = text.length :=
    gttmAux_fst_length 0 text
  have htne : text ≠ [] := by
    intro h
    subst h
    simp [generateTextTimingMap, gttmAux] at hW
  -- the index of the last nonzero-weight character
  have hFne : ((Finset.range text.length).filter
      (fun i => charWeight (text.getD i 'a') ≠ 0)).Nonempty := by
    by_contra hc
    rw [Finset.not_nonempty_iff_eq_empty, Finset.filter_eq_empty_iff] at hc
    have hz : (text.map charWeight).sum = 0 := by
      rw [sum_map_charWeight_eq_range]
      apply Finset.sum_eq_zero
      intro i hi
      have := hc hi
      simpa using this
    have : (generateTextTimingMap text).2 = 0 := by
      rw [generateTextTimingMap, gttmAux_snd, zero_add, hz]
    linarith
  set F := (Finset.range text.length).filter
      (fun i => charWeight (text.getD i 'a') ≠ 0) with hF
  set istar := F.max' hFne with histar
  have histar_mem : istar ∈ F := F.max'_mem hFne
  have histar_lt : istar < text.length := by
    have := Finset.mem_filter.mp histar_mem
    simpa using this.1
  have histar_ne : charWeight (text.getD istar 'a') ≠ 0 := by
    have := Finset.mem_filter.mp histar_mem
    simpa using this.2
  have histar_max : ∀ j, istar < j → j < text.length → charWeight (text.getD j 'a') = 0 := by
    intro j hij hjlen
    by_contra hc
    have hjF : j ∈ F := Finset.mem_filter.mpr ⟨Finset.mem_range.mpr hjlen, by simpa using hc⟩
    have := F.le_max' j hjF
    omega
  -- suffix after istar has zero weight
  have hsuffix : ((text.drop (istar + 1)).map charWeight).sum = 0 := by
    apply List.sum_eq_zero
    intro x hx
    simp only [List.mem_map] at hx
    obtain ⟨c, hc, hcx⟩ := hx
    obtain ⟨j, hj1, hj2, hj3⟩ := mem_drop_getD text (istar + 1) c hc
    subst hcx
    rw [hj3]
    exact histar_max j (by omega) hj2
  have hcum_star : (generateTextTimingMap text).1.getD istar 0 =
      (generateTextTimingMap text).2 := by
    have := gttm_getD_add_suffix text istar histar_lt
    rw [hsuffix, add_zero] at this
    exact this
  have hcum_lt : ∀ j, j < istar →
      (generateTextTimingMap text).1.getD j 0 < (generateTextTimingMap text).2 := by
    intro j hj
    have hjlen : j < text.length := by omega
    have hadd := gttm_getD_add_suffix text j hjlen
    have hmem : charWeight (text.getD istar 'a') ∈ (text.drop (j + 1)).map charWeight := by
      simp only [List.mem_map]
      exact ⟨text.getD istar 'a', getD_mem_drop text (j + 1) istar (by omega) histar_lt, rfl⟩
    have hpos : 0 < charWeight (text.getD istar 'a') := by
      rcases lt_or_eq_of_le (charWeight_nonneg (text.getD istar 'a')) with h | h
      · exact h
      · exact absurd h.symm histar_ne
    have hle : charWeight (text.getD istar 'a') ≤ ((text.drop (j + 1)).map charWeight).sum := by
      apply List.single_le_sum _ _ hmem
      intro x hx
      simp only [List.mem_map] at hx
      obtain ⟨c, _, hcx⟩ := hx
      exact hcx ▸ charWeight_nonneg c
    linarith
  have hcases : (∃ i, jsFindIndex (fun w => targetWeightOf text t D ≤ w)
        (generateTextTimingMap text).1 = some i ∧ charIndexPrimary text t D = i) ∨
      (jsFindIndex (fun w => targetWeightOf text t D ≤ w)
        (generateTextTimingMap text).1 = none ∧ charIndexPrimary text t D = text.length) := by
    rw [charIndexPrimary_eq]
    cases hfi : jsFindIndex (fun w => targetWeightOf text t D ≤ w)
        (generateTextTimingMap text).1 with
    | none => exact Or.inr ⟨rfl, rfl⟩
    | some i => exact Or.inl ⟨i, rfl, rfl⟩
  refine ⟨?_, ?_, ?_, ?_, ?_⟩
  · -- bounded by text length
    rcases hcases with ⟨i, hfi, hEq⟩ | ⟨hfi, hEq⟩
    · rw [hEq]
      have := (jsFindIndex_some _ _ i hfi).1
      rw [hlen] at this
      exact this.le
    · rw [hEq]
  · -- first-index characterization, found case
    intro hk
    rcases hcases with ⟨i, hfi, hEq⟩ | ⟨hfi, hEq⟩
    · obtain ⟨h1, h2, h3⟩ := jsFindIndex_some _ _ i hfi
      rw [hEq]
      constructor
      · simpa using h2
      · intro j hj
        have := h3 j hj
        simp only [decide_eq_false_iff_not, not_le] at this
        exact this
    · rw [hEq] at hk
      omega
  · -- none case
    intro hk
    rcases hcases with ⟨i, hfi, hEq⟩ | ⟨hfi, hEq⟩
    · obtain ⟨h1, _, _⟩ := jsFindIndex_some _ _ i hfi
      rw [hlen] at h1
      rw [hEq] at hk
      omega
    · intro j hj
      have hj' : j < (generateTextTimingMap text).1.length := by rw [hlen]; exact hj
      have := jsFindIndex_none _ _ hfi j hj'
      simp only [decide_eq_false_iff_not, not_le] at this
      exact this
  · -- index 0 at time 0
    have htw : targetWeightOf text 0 D = 0 := by
      unfold targetWeightOf
      rw [zero_div]
      simp
    have hpos : 0 < text.length := List.length_pos.mpr htne
    have hone : jsFindIndex (fun w => targetWeightOf text 0 D ≤ w)
        (generateTextTimingMap text).1 = some 0 := by
      apply jsFindIndex_eq_some
      · rw [hlen]; exact hpos
      · rw [htw]
        simp only [decide_eq_true_eq]
        exact gttm_getD_nonneg text 0 hpos
      · intro j hj
        omega
    rw [charIndexPrimary_eq, hone]
  · -- progress 1: the last nonzero-weight index
    refine ⟨istar, ?_, histar_lt, histar_ne, histar_max⟩
    have htw : targetWeightOf text D D = (generateTextTimingMap text).2 := by
      unfold targetWeightOf
      rw [div_self (ne_of_gt hD)]
      simp
    have hone : jsFindIndex (fun w => targetWeightOf text D D ≤ w)
        (generateTextTimingMap text).1 = some istar := by
      apply jsFindIndex_eq_some
      · rw [hlen]; exact histar_lt
      · rw [htw, hcum_star]
        simp
      · intro j hj
        rw [htw]
        simp only [decide_eq_false_iff_not, not_le]
        exact hcum_lt j hj
    rw [charIndexPrimary_eq, hone]

/-- Witness text `"Hi."` as an explicit character list. -/
def hiText : List Char := ['H', 'i', '.']

/-- Witness for C2 at text `"Hi."`, `t = 3`, `D = 10`. -/
theorem claim2_char_index_witness :
    ((0:ℚ) < 10 ∧ 0 < (generateTextTimingMap hiText).2) ∧
    charIndexPrimary hiText 0 10 = 0 :=
  ⟨⟨by norm_num, by simp +decide [hiText, generateTextTimingMap, gttmAux, charWeight]; norm_num⟩,
    (claim2_char_index hiText 3 10 (by norm_num)
      (by simp +decide [hiText, generateTextTimingMap, gttmAux, charWeight]; norm_num)).2.2.2.1⟩

/-! ## Sentence boundary scan (VideoEditor.tsx lines 245-250)

The regex `/[^.!?\n]+(?:[.!?\n]+|$)/g` is executed against the text and
each match's `[start, start + length)` range is collected.  The scan is
modelled as a single pass: skip characters that cannot start a match,
then take a maximal run of non-terminators followed by a maximal run of
terminators (empty at end of string). -/

/-- Sentence terminator class `[.!?\n]` of the boundary regex. -/
def isTerm (c : Char) : Bool := c = '.' || c = '!' || c = '?' || c = '\n'

/-- Scanner phase: skipping unmatched terminators, inside the
non-terminator run (with match start), or inside the terminator run. -/
inductive ScanPhase where
  | skp : ScanPhase
  | bdy : ℕ → ScanPhase
  | trm : ℕ → ScanPhase

/-- One pass of the boundary regex over the remaining characters, with
the current position and phase. -/
def sentStep : List Char → ℕ → ScanPhase → List (ℕ × ℕ)
  | [], _, ScanPhase.skp => []
  | [], pos, ScanPhase.bdy s => [(s, pos)]
  | [], pos, ScanPhase.trm s => [(s, pos)]
  | c :: cs, pos, ScanPhase.skp =>
    if isTerm c then sentStep cs (pos + 1) ScanPhase.skp
    else sentStep cs (pos + 1) (ScanPhase.bdy pos)
  | c :: cs, pos, ScanPhase.bdy s =>
    if isTerm c then sentStep cs (pos + 1) (ScanPhase.trm s)
    else sentStep cs (pos + 1) (ScanPhase.bdy s)
  | c :: cs, pos, ScanPhase.trm s =>
    if isTerm c then sentStep cs (pos + 1) (ScanPhase.trm s)
    else (s, pos) :: sentStep cs (pos + 1) (ScanPhase.bdy pos)

/-- The sentence `{start, end}` ranges collected by the loop at
VideoEditor.tsx lines 245-250. -/
def sentenceRanges (text : List Char) : List (ℕ × ℕ) :=
  sentStep text 0 ScanPhase.skp

/-- C9 counterexample: on `"Hello world.\nBye!"` the boundary scan's
first match is `"Hello world.\n"` — the greedy terminator run absorbs
the newline — so the split is not `["Hello world.", "Bye!"]` as claimed. -/
theorem claim9_counterexample :
    sentenceRanges "Hello world.\nBye!".toList = [(0, 13), (13, 17)] ∧
    ("Hello world.\nBye!".toList).take 13 = "Hello world.\n".toList ∧
    "Hello world.\n".toList ≠ "Hello world.".toList := by decide

/-- C9 (amended): the boundary scan over `. ! ? \n` splits
`"Hello world.\nBye!"` into exactly the two ranges `[0,13)` and
`[13,17)`, whose substrings are `"Hello world.\n"` (the terminator run
including the newline is part of the first sentence) and `"Bye!"`. -/
theorem claim9_sentence_split :
    sentenceRanges "Hello world.\nBye!".toList = [(0, 13), (13, 17)] ∧
    (("Hello world.\nBye!".toList).drop 0).take (13 - 0) = "Hello world.\n".toList ∧
    (("Hello world.\nBye!".toList).drop 13).take (17 - 13) = "Bye!".toList := by decide

/-! ## Slideshow director (VideoEditor.tsx lines 20-23 and 415-421)

`Math.sin` is an external math capability, passed in as `sinF`; the
post-increment `seed++` in the source writes to a dead local. -/

/-- `seededRandom` (VideoEditor.tsx lines 20-23):
`x = sin(seed) * 10000; return x - floor(x)`. -/
def seededRandom (sinF : ℚ → ℚ) (seed : ℚ) : ℚ :=
  let x := sinF seed * 10000
  x - ⌊x⌋

/-- `slideIndex = floor(currentTime / SLIDE_DURATION)` with
`SLIDE_DURATION = 4` (VideoEditor.tsx lines 416-417). -/
def slideIndexOf (currentTime : ℚ) : ℤ := ⌊currentTime / 4⌋

/-- `imgIdx = floor(seededRandom(slideIndex * 123.45) * loadedImages.length)`
(VideoEditor.tsx lines 418, 420). -/
def imgIdxOf (sinF : ℚ → ℚ) (currentTime : ℚ) (imageCount : ℕ) : ℤ :=
  ⌊seededRandom sinF ((slideIndexOf currentTime : ℚ) * 123.45) * imageCount⌋

/-- `animType = floor(seededRandom(slideIndex * 678.90) * 6)`
(VideoEditor.tsx lines 419, 421). -/
def animTypeOf (sinF : ℚ → ℚ) (currentTime : ℚ) : ℤ :=
  ⌊seededRandom sinF ((slideIndexOf currentTime : ℚ) * 678.90) * 6⌋

theorem seededRandom_mem (sinF : ℚ → ℚ) (seed : ℚ) :
    0 ≤ seededRandom sinF seed ∧ seededRandom sinF seed < 1 := by
  have h : seededRandom sinF seed = Int.fract (sinF seed * 10000) := rfl
  rw [h]
  exact ⟨Int.fract_nonneg _, Int.fract_lt_one _⟩

theorem floor_mul_mem (r : ℚ) (n : ℕ) (h0 : 0 ≤ r) (h1 : r < 1) (hn : 0 < n) :
    0 ≤ ⌊r * (n : ℚ)⌋ ∧ ⌊r * (n : ℚ)⌋ < (n : ℤ) := by
  constructor
  · exact Int.floor_nonneg.mpr (mul_nonneg h0 (by positivity))
  · apply Int.floor_lt.mpr
    push_cast
    calc r * (n : ℚ) < 1 * (n : ℚ) := by
          apply mul_lt_mul_of_pos_right h1
          exact_mod_cast hn
      _ = (n : ℚ) := one_mul _

/-- C10: `seededRandom` always lands in `[0, 1)`, hence for a non-empty
image list the slideshow image index satisfies `0 ≤ imgIdx < n` (the
lookup never leaves the list) and the animation variant is one of
`0..5`. -/
theorem claim10_slideshow_safety (sinF : ℚ → ℚ) (t : ℚ) (n : ℕ)
    (ht : 0 ≤ t) (hn : 0 < n) :
    (∀ seed, 0 ≤ seededRandom sinF seed ∧ seededRandom sinF seed < 1) ∧
    (0 ≤ imgIdxOf sinF t n ∧ imgIdxOf sinF t n < (n : ℤ)) ∧
    (0 ≤ animTypeOf sinF t ∧ animTypeOf sinF t < 6) := by
  refine ⟨fun seed => seededRandom_mem sinF seed, ?_, ?_⟩
  · obtain ⟨h0, h1⟩ := seededRandom_mem sinF ((slideIndexOf t : ℚ) * 123.45)
    exact floor_mul_mem _ n h0 h1 hn
  · obtain ⟨h0, h1⟩ := seededRandom_mem sinF ((slideIndexOf t : ℚ) * 678.90)
    have := floor_mul_mem _ 6 h0 h1 (by norm_num)
    constructor
    · exact this.1
    · exact_mod_cast this.2

/-- Witness for C10 with the constant-zero sine stub, `t = 8`, one
image. -/
theorem claim10_slideshow_safety_witness :
    ((0:ℚ) ≤ 8 ∧ 0 < 1) ∧
    (0 ≤ imgIdxOf (fun _ => 0) 8 1 ∧ imgIdxOf (fun _ => 0) 8 1 < (1 : ℤ)) :=
  ⟨⟨by norm_num, Nat.one_pos⟩,
    (claim10_slideshow_safety (fun _ => 0) 8 1 (by norm_num) Nat.one_pos).2.1⟩

/-! ## Capture driver model (VideoEditor.tsx lines 507-558)

The capture loop is driven by the audio clock: each animation-frame tick
reads `elapsed`, draws a frame, and either schedules the next tick
(`elapsed < actualDuration + 0.5`) or stops the recorder.  The audio
source's `onended` handler stops the recorder 500 ms later through a
timeout.  `MediaRecorder.stop()` is guarded by `state !== 'inactive'`
everywhere, and `onstop` fires `onVideoCreated` exactly once per stop.
The model makes the interleaving of these events explicit: a `tick e`
event is a `renderLoop` invocation observing audio-clock value `e`, and
`endedStop` is the delayed stop performed by the `onended` timeout. -/

/-- An event delivered to the capture driver. -/
inductive CapEvent where
  | tick : ℚ → CapEvent
  | endedStop : CapEvent

/-- Capture driver state: whether the recorder is still active (JS
`mediaRecorder.state !== 'inactive'`), how many times `onVideoCreated`
has fired, whether the render loop still schedules frames, and how many
frames were drawn after the recorder had already been stopped. -/
structure CapState where
  recActive : Bool
  callbacks : ℕ
  loopAlive : Bool
  rendersAfterStop : ℕ

/-- Initial capture state: recorder started, loop running. -/
def capInit : CapState := ⟨true, 0, true, 0⟩

/-- One event of the capture driver.  A tick draws a frame and then
either re-schedules (when `e < dur + 0.5`) or stops the recorder and
halts the loop; `endedStop` stops the recorder if it is still active
(`onstop` then fires the completion callback). -/
def capStep (dur : ℚ) (s : CapState) : CapEvent → CapState
  | CapEvent.tick e =>
    if s.loopAlive then
      let s' : CapState :=
        { s with rendersAfterStop := s.rendersAfterStop + (if s.recActive then 0 else 1) }
      if e < dur + 1/2 then s'
      else { s' with loopAlive := false, recActive := false,
                     callbacks := s'.callbacks + (if s.recActive then 1 else 0) }
    else s
  | CapEvent.endedStop =>
    if s.recActive then
      { s with recActive := false, callbacks := s.callbacks + 1 }
    else s

/-- Run the capture driver over a sequence of events. -/
def capRun (dur : ℚ) (events : List CapEvent) : CapState :=
  events.foldl (capStep dur) capInit

/-- The driver invariant: the completion callback has fired exactly once
iff the recorder has been stopped, and a halted loop implies a stopped
recorder. -/
def CapInv (s : CapState) : Prop :=
  (s.callbacks = if s.recActive then 0 else 1) ∧
  (s.loopAlive = false → s.recActive = false)

theorem capStep_inv (dur : ℚ) (s : CapState) (ev : CapEvent)
    (h : CapInv s) : CapInv (capStep dur s ev) := by
  obtain ⟨h1, h2⟩ := h
  cases ev with
  | tick e =>
    simp only [capStep, CapInv] at *
    split
    · split
      · exact ⟨h1, h2⟩
      · cases hr : s.recActive <;> simp_all
    · exact ⟨h1, h2⟩
  | endedStop =>
    simp only [capStep, CapInv] at *
    split
    · cases hr : s.recActive <;> simp_all
    · simp_all

theorem capRun_inv (dur : ℚ) (events : List CapEvent) : CapInv (capRun dur events) := by
  rw [capRun]
  induction events using List.reverseRecOn with
  | nil => exact ⟨rfl, by simp [capInit]⟩
  | append_singleton evs ev ih =>
    rw [List.foldl_append]
    exact capStep_inv dur _ ev ih

/-- A state with a halted loop and stopped recorder absorbs every
further event. -/
theorem capStep_absorbed (dur : ℚ) (s : CapState) (ev : CapEvent)
    (hl : s.loopAlive = false) (hr : s.recActive = false) :
    capStep dur s ev = s := by
  cases ev with
  | tick e => simp [capStep, hl]
  | endedStop => simp [capStep, hr]

/-- C6 counterexample: after an audio-completion stop with the audio
clock still below `duration + 0.5`, the render loop keeps drawing
frames — the claim's "after the stop no further render ticks occur"
fails on the ended-first path (the loop only halts itself on the
elapsed-time bound). -/
theorem claim6_counterexample :
    (capRun 1 [CapEvent.endedStop, CapEvent.tick 1]).callbacks = 1 ∧
    (capRun 1 [CapEvent.endedStop, CapEvent.tick 1]).rendersAfterStop = 1 ∧
    (capRun 1 [CapEvent.endedStop, CapEvent.tick 1]).loopAlive = true := by
  norm_num [capRun, capStep, capInit]

/-- C6 (amended): a tick whose elapsed audio-clock value reaches
`duration + 0.5` halts the render loop and stops the recorder; from then
on every further event (tick or delayed audio-completion stop) leaves
the state unchanged, and the completion callback has fired exactly once;
over any event sequence the callback fires at most once.  (The loop
halts itself only via the elapsed-time bound: ticks below the bound may
still render after an audio-completion stop.)  In particular a tick at
`elapsed = duration + 0.6` stops the encoder with exactly one callback
and no renders after the stop. -/
theorem claim6_capture_stop (dur e : ℚ) (evs evs' : List CapEvent)
    (he : dur + 1/2 ≤ e) :
    capRun dur (evs ++ CapEvent.tick e :: evs') = capRun dur (evs ++ [CapEvent.tick e]) ∧
    (capRun dur (evs ++ [CapEvent.tick e])).loopAlive = false ∧
    (capRun dur (evs ++ [CapEvent.tick e])).recActive = false ∧
    (capRun dur (evs ++ [CapEvent.tick e])).callbacks = 1 ∧
    (capRun dur [CapEvent.tick e]).rendersAfterStop = 0 ∧
    (∀ evs2, (capRun dur evs2).callbacks ≤ 1) := by
  have hne : ¬ (e < dur + 1/2) := not_lt.mpr he
  have hne2 : (e < dur + 1/2) = False := eq_false hne
  have hinv : CapInv (capRun dur evs) := capRun_inv dur evs
  have hstep : ∀ s : CapState, CapInv s →
      (capStep dur s (CapEvent.tick e)).loopAlive = false ∧
      (capStep dur s (CapEvent.tick e)).recActive = false ∧
      (capStep dur s (CapEvent.tick e)).callbacks = 1 := by
    intro s hs
    obtain ⟨h1, h2⟩ := hs
    simp only [capStep, hne2, if_false]
    split
    · cases hr : s.recActive <;> simp_all
    · rename_i hl
      have hl' : s.loopAlive = false := by
        cases hla : s.loopAlive
        · rfl
        · exact absurd (by simp [hla]) hl
      have hr' := h2 hl'
      simp_all
  have hafter : capRun dur (evs ++ [CapEvent.tick e]) =
      capStep dur (capRun dur evs) (CapEvent.tick e) := by
    rw [capRun, List.foldl_append]
    rfl
  obtain ⟨ha1, ha2, ha3⟩ := hstep (capRun dur evs) hinv
  rw [← hafter] at ha1 ha2 ha3
  refine ⟨?_, ha1, ha2, ha3, ?_, ?_⟩
  · -- events after the halting tick are absorbed
    have habs : ∀ (l : List CapEvent) (s : CapState),
        s.loopAlive = false → s.recActive = false →
        l.foldl (capStep dur) s = s := by
      intro l
      induction l with
      | nil => intro s _ _; rfl
      | cons ev l ih =>
        intro s hl hr
        rw [List.foldl_cons, capStep_absorbed dur s ev hl hr]
        exact ih s hl hr
    calc capRun dur (evs ++ CapEvent.tick e :: evs')
        = evs'.foldl (capStep dur) (capRun dur (evs ++ [CapEvent.tick e])) := by
          rw [capRun, capRun]
          rw [show evs ++ CapEvent.tick e :: evs' = (evs ++ [CapEvent.tick e]) ++ evs' by simp]
          rw [List.foldl_append, List.foldl_append]
      _ = capRun dur (evs ++ [CapEvent.tick e]) :=
          habs evs' _ ha1 ha2
  · -- a single bound-exceeding tick draws no frame after the stop
    simp only [capRun, List.foldl_cons, List.foldl_nil, capStep]
    split
    · split <;> simp_all [capInit]
    · simp_all [capInit]
  · -- at most one callback ever
    intro evs2
    have hcb := (capRun_inv dur evs2).1
    cases hr : (capRun dur evs2).recActive with
    | true => simp [hr] at hcb; omega
    | false => simp [hr] at hcb; omega

/-- Witness for C6: `duration = 1`, halting tick at `1.6 = duration + 0.6`,
one further tick afterwards. -/
theorem claim6_capture_stop_witness :
    ((1:ℚ) + 1/2 ≤ 1.6) ∧
    (capRun 1 ([] ++ [CapEvent.tick 1.6])).callbacks = 1 :=
  ⟨by norm_num,
    (claim6_capture_stop 1 1.6 [] [CapEvent.tick 9] (by norm_num)).2.2.2.1⟩

/-! ## Text layout engine (VideoEditor.tsx lines 116-188)

The measurement capability `ctx.measureText` is modelled as a function
from the current font size and a string to a width.  Strings are lists
of characters; `text.split('\n')` and `para.split(' ')` are modelled by
`splitChar`. -/

/-- JS `String.prototype.split` with a one-character separator:
`"".split(s) = [""]`, and consecutive separators produce empty pieces. -/
def splitChar (sep : Char) : List Char → List (List Char)
  | [] => [[]]
  | c :: cs =>
    let r := splitChar sep cs
    if c = sep then [] :: r
    else (c :: r.headD []) :: r.tail

/-- Words joined with single spaces (for stating lemmas about the
greedy accumulator). -/
def joinW (ws : List (List Char)) : List Char := List.intercalate [' '] ws

/-- Result of the character-by-character split of an over-wide word
(VideoEditor.tsx lines 152-164): the emitted sub-lines with their start
offsets, the remaining `subWord` that becomes the current line, and the
updated `lineStartIndex`. -/
structure CharSplitRes where
  lines : List (List Char)
  idxs : List ℕ
  sub : List Char
  lineStart : ℕ

/-- The `for (const char of word)` loop of VideoEditor.tsx lines 154-163:
push `subWord` and advance `lineStartIndex` whenever adding the next
character would overflow `maxWidth`. -/
def charSplit (meas : List Char → ℚ) (maxWidth : ℚ) :
    List Char → List Char → ℕ → CharSplitRes
  | [], sub, ls => ⟨[], [], sub, ls⟩
  | ch :: rest, sub, ls =>
    if maxWidth < meas (sub ++ [ch]) then
      let r := charSplit meas maxWidth rest [ch] (ls + sub.length)
      ⟨sub :: r.lines, ls :: r.idxs, r.sub, r.lineStart⟩
    else charSplit meas maxWidth rest (sub ++ [ch]) ls

/-- The word loop for one paragraph (VideoEditor.tsx lines 142-176),
including the final push of `currentLine`: state is the remaining
words, the current line and `lineStartIndex`; returns the pushed lines
and their start offsets in order. -/
def wrapPara (meas : List Char → ℚ) (maxWidth : ℚ) :
    List (List Char) → List Char → ℕ → List (List Char) × List ℕ
  | [], c, ls => ([c], [ls])
  | w :: ws, c, ls =>
    let t := if c = [] then w else c ++ ' ' :: w
    if maxWidth < meas t then
      if c = [] then
        let r := charSplit meas maxWidth w [] ls
        let rest := wrapPara meas maxWidth ws r.sub r.lineStart
        (r.lines ++ rest.1, r.idxs ++ rest.2)
      else
        let rest := wrapPara meas maxWidth ws w (ls + c.length + 1)
        (c :: rest.1, ls :: rest.2)
    else
      wrapPara meas maxWidth ws t ls

/-- The paragraph loop (VideoEditor.tsx lines 138-178):
`currentGlobalIndex` advances by `para.length + 1` per paragraph. -/
def wrapParas (meas : List Char → ℚ) (maxWidth : ℚ) :
    List (List Char) → ℕ → List (List Char) × List ℕ
  | [], _ => ([], [])
  | p :: ps, cg =>
    let r := wrapPara meas maxWidth (splitChar ' ' p) [] cg
    let rest := wrapParas meas maxWidth ps (cg + p.length + 1)
    (r.1 ++ rest.1, r.2 ++ rest.2)

/-- One full wrap pass at a fixed font size: the body of the `while`
loop of `getWrappedLines` (VideoEditor.tsx lines 135-178). -/
def wrapOnce (meas : List Char → ℚ) (maxWidth : ℚ) (text : List Char) :
    List (List Char) × List ℕ :=
  wrapParas meas maxWidth (splitChar '\n' text) 0

/-- The record returned by `getWrappedLines` (VideoEditor.tsx line 187). -/
structure WrapResult where
  lines : List (List Char)
  lineStartIndices : List ℕ
  fontSize : ℚ
  lineHeight : ℚ

/-- The font-size descent loop of `getWrappedLines` (VideoEditor.tsx
lines 132-185), with explicit fuel: each pass decrements `fontSize` by
one whole unit, so `(⌈baseFontSize⌉ - 9).toNat` passes suffice, and the
fuel-exhausted case (which can only be reached with `fontSize < 10`)
returns the carried state exactly as the loop-guard exit does. -/
def wrapLoop (meas : ℚ → List Char → ℚ) (text : List Char)
    (maxWidth maxHeight lineHeightFactor : ℚ) :
    ℕ → ℚ → List (List Char) → List ℕ → ℚ → WrapResult
  | 0, fs, ls, is, lh => ⟨ls, is, fs, lh⟩
  | fuel + 1, fs, ls, is, lh =>
    if fs < 10 then ⟨ls, is, fs, lh⟩
    else
      let lh' := fs * lineHeightFactor
      let r := wrapOnce (meas fs) maxWidth text
      if (r.1.length : ℚ) * lh' ≤ maxHeight ∨ fs = 10 then ⟨r.1, r.2, fs, lh'⟩
      else wrapLoop meas text maxWidth maxHeight lineHeightFactor fuel (fs - 1) r.1 r.2 lh'

/-- `getWrappedLines` (VideoEditor.tsx lines 116-188): descend from the
base font size, one unit at a time with floor `MIN_FONT_SIZE = 10`,
until the wrapped text fits the available height. -/
def getWrappedLines (meas : ℚ → List Char → ℚ) (text : List Char)
    (maxWidth maxHeight baseFontSize lineHeightFactor : ℚ) : WrapResult :=
  wrapLoop meas text maxWidth maxHeight lineHeightFactor
    (⌈baseFontSize⌉ - 9).toNat baseFontSize [] [] (baseFontSize * lineHeightFactor)

/-- C3 counterexample: with `baseFontSize = 9` the `while` guard
`fontSize >= MIN_FONT_SIZE` fails immediately and `getWrappedLines`
returns font size 9, which does not lie in the (empty) interval
`[10, 9]` — the claim fails for base sizes below the minimum. -/
theorem claim3_counterexample :
    (getWrappedLines (fun _ _ => 0) ['a'] 100 100 9 1).fontSize = 9 ∧
    ¬ (10 ≤ (getWrappedLines (fun _ _ => 0) ['a'] 100 100 9 1).fontSize ∧
       (getWrappedLines (fun _ _ => 0) ['a'] 100 100 9 1).fontSize ≤ 9) := by
  have h : (getWrappedLines (fun _ _ => (0:ℚ)) ['a'] 100 100 9 1).fontSize = 9 := by
    norm_num [getWrappedLines, wrapLoop]
  refine ⟨h, ?_⟩
  rw [h]
  norm_num

theorem wrapLoop_fontSize_bounds (meas : ℚ → List Char → ℚ) (text : List Char)
    (mw mh lhf : ℚ) (fuel : ℕ) :
    ∀ (k : ℕ) (fs : ℚ) (ls : List (List Char)) (is : List ℕ) (lh : ℚ),
      fs = 10 + (k : ℚ) → k < fuel →
      10 ≤ (wrapLoop meas text mw mh lhf fuel fs ls is lh).fontSize ∧
      (wrapLoop meas text mw mh lhf fuel fs ls is lh).fontSize ≤ fs := by
  induction fuel with
  | zero => intro k fs ls is lh _ hk; omega
  | succ n ih =>
    intro k fs ls is lh hfs hk
    have h10 : (10:ℚ) ≤ fs := by
      rw [hfs]
      have : (0:ℚ) ≤ (k : ℚ) := Nat.cast_nonneg k
      linarith
    rw [wrapLoop]
    rw [if_neg (not_lt.mpr h10)]
    by_cases hacc : ((wrapOnce (meas fs) mw text).1.length : ℚ) * (fs * lhf) ≤ mh ∨ fs = 10
    · rw [if_pos hacc]
      exact ⟨h10, le_refl fs⟩
    · rw [if_neg hacc]
      have hne10 : fs ≠ 10 := fun h => hacc (Or.inr h)
      have hkpos : 0 < k := by
        rcases Nat.eq_zero_or_pos k with h0 | h
        · exfalso
          apply hne10
          rw [hfs, h0]
          norm_num
        · exact h
      have hfs' : fs - 1 = 10 + ((k - 1 : ℕ) : ℚ) := by
        rw [hfs, Nat.cast_sub hkpos, Nat.cast_one]
        ring
      have hrec := ih (k - 1) (fs - 1) (wrapOnce (meas fs) mw text).1
        (wrapOnce (meas fs) mw text).2 (fs * lhf) hfs' (by omega)
      exact ⟨hrec.1, by linarith [hrec.2]⟩

/-- C3 (amended): whenever the base font size is `10 + k` for a natural
`k` (a whole-unit size at or above the minimum), the returned font size
lies in `[10, baseFontSize]`; for base sizes below 10 the loop is
skipped and the base size is returned unchanged (see the
counterexample). -/
theorem claim3_font_bounds (meas : ℚ → List Char → ℚ) (text : List Char)
    (mw mh lhf base : ℚ) (k : ℕ) (hbase : base = 10 + (k : ℚ)) :
    10 ≤ (getWrappedLines meas text mw mh base lhf).fontSize ∧
    (getWrappedLines meas text mw mh base lhf).fontSize ≤ base := by
  rw [getWrappedLines]
  have hceil : (⌈base⌉ - 9).toNat = k + 1 := by
    rw [hbase]
    have : ⌈(10:ℚ) + (k : ℚ)⌉ = 10 + (k : ℤ) := by
      rw [show ((10:ℚ) + (k:ℚ)) = (((10 + (k:ℤ)) : ℤ) : ℚ) by push_cast; ring]
      exact Int.ceil_intCast _
    rw [this]
    omega
  rw [hceil]
  exact wrapLoop_fontSize_bounds meas text mw mh lhf (k + 1) k base [] []
    (base * lhf) hbase (by omega)

/-- Witness for C3 (amended) at `baseFontSize = 12`. -/
theorem claim3_font_bounds_witness :
    ((12:ℚ) = 10 + ((2:ℕ) : ℚ)) ∧
    (getWrappedLines (fun _ _ => 0) ['a'] 100 100 12 1).fontSize ≤ 12 :=
  ⟨by norm_num,
    (claim3_font_bounds (fun _ _ => 0) ['a'] 100 100 1 12 2 (by norm_num)).2⟩

/-! ## Structural facts about the wrap pass -/

/-- Join pieces with a separator character (inverse of `splitChar`). -/
def joinC (sep : Char) : List (List Char) → List Char
  | [] => []
  | [w] => w
  | w :: x :: ws => w ++ sep :: joinC sep (x :: ws)

/-- `' ' ++ w` blocks for the words after the current line. -/
def tailGlue : List (List Char) → List Char
  | [] => []
  | w :: ws => ' ' :: (w ++ tailGlue ws)

theorem joinC_cons_eq_tailGlue (w : List Char) (ws : List (List Char)) :
    joinC ' ' (w :: ws) = w ++ tailGlue ws := by
  induction ws generalizing w with
  | nil => simp [joinC, tailGlue]
  | cons x t ih =>
    rw [joinC, ih x]
    simp [tailGlue]

theorem splitChar_ne_nil (sep : Char) (l : List Char) : splitChar sep l ≠ [] := by
  cases l with
  | nil => simp [splitChar]
  | cons c cs =>
    rw [splitChar]
    split <;> simp

theorem joinC_splitChar (sep : Char) (l : List Char) :
    joinC sep (splitChar sep l) = l := by
  induction l with
  | nil => rfl
  | cons c cs ih =>
    rw [splitChar]
    cases hr : splitChar sep cs with
    | nil => exact absurd hr (splitChar_ne_nil sep cs)
    | cons x t =>
      rw [hr] at ih
      by_cases hc : c = sep
      · rw [if_pos hc, joinC, ih, hc]
        rfl
      · rw [if_neg hc]
        simp only [List.headD_cons, List.tail_cons]
        cases t with
        | nil =>
          simp only [joinC] at ih ⊢
          rw [ih]
        | cons y u =>
          rw [joinC] at ih ⊢
          rw [List.cons_append, ih]

/-- Separator count accounting: one leading separator per remaining
word. -/
def restLen (ws : List (List Char)) : ℕ := (ws.map (fun w => 1 + w.length)).sum

theorem joinC_length_le (sep : Char) (ws : List (List Char)) :
    (joinC sep ws).length ≤ restLen ws := by
  induction ws with
  | nil => simp [joinC, restLen]
  | cons w t ih =>
    cases t with
    | nil =>
      simp only [joinC, restLen, List.map_cons, List.map_nil, List.sum_cons, List.sum_nil]
      omega
    | cons x u =>
      rw [joinC]
      simp only [restLen, List.map_cons, List.sum_cons, List.length_append,
        List.length_cons] at ih ⊢
      omega

theorem joinC_length_cons (sep : Char) (w x : List Char) (u : List (List Char)) :
    (joinC sep (w :: x :: u)).length = w.length + 1 + (joinC sep (x :: u)).length := by
  rw [joinC]
  simp only [List.length_append, List.length_cons]
  omega

theorem restLen_eq_joinC_succ (sep : Char) (w : List Char) (u : List (List Char)) :
    restLen (w :: u) = (joinC sep (w :: u)).length + 1 := by
  induction u generalizing w with
  | nil =>
    simp only [restLen, joinC, List.map_cons, List.map_nil, List.sum_cons, List.sum_nil]
    omega
  | cons x t ih =>
    have hx := ih x
    rw [joinC_length_cons]
    simp only [restLen, List.map_cons, List.sum_cons] at hx ⊢
    omega

/-- Ordering relation between consecutive pushed `(line, startIndex)`
pairs: the next start index is at least the previous start plus the
previous line's length, and two consecutive empty lines have strictly
increasing start indices. -/
def wRel (a b : List Char × ℕ) : Prop :=
  a.2 + a.1.length ≤ b.2 ∧ (a.1 = [] → b.1 = [] → a.2 < b.2)

theorem charSplit_facts (meas : List Char → ℚ) (mw : ℚ) (w : List Char) :
    ∀ (sub : List Char) (ls : ℕ),
      (charSplit meas mw w sub ls).idxs.length =
        (charSplit meas mw w sub ls).lines.length ∧
      (charSplit meas mw w sub ls).lineStart +
        (charSplit meas mw w sub ls).sub.length = ls + sub.length + w.length ∧
      ls ≤ (charSplit meas mw w sub ls).lineStart ∧
      ((charSplit meas mw w sub ls).lines = [] →
        (charSplit meas mw w sub ls).lineStart = ls ∧
        (charSplit meas mw w sub ls).sub = sub ++ w) ∧
      ((charSplit meas mw w sub ls).lines ≠ [] →
        (charSplit meas mw w sub ls).idxs.head? = some ls) ∧
      (∀ p ∈ (charSplit meas mw w sub ls).lines.zip (charSplit meas mw w sub ls).idxs,
        ls ≤ p.2 ∧ p.2 + p.1.length ≤ (charSplit meas mw w sub ls).lineStart) ∧
      (sub ≠ [] → ∀ x ∈ (charSplit meas mw w sub ls).lines, x ≠ []) ∧
      (∀ x ∈ (charSplit meas mw w sub ls).lines.tail, x ≠ []) ∧
      ((sub ≠ [] ∨ w ≠ []) → (charSplit meas mw w sub ls).sub ≠ []) ∧
      List.Chain' wRel ((charSplit meas mw w sub ls).lines.zip
        (charSplit meas mw w sub ls).idxs) := by
  induction w with
  | nil =>
    intro sub ls
    refine ⟨rfl, by simp [charSplit], le_refl ls, ?_, ?_, ?_, ?_, ?_, ?_, ?_⟩
    · intro _
      exact ⟨rfl, by simp [charSplit]⟩
    · intro h
      exact absurd rfl h
    · intro p hp
      simp [charSplit] at hp
    · intro _ x hx
      simp [charSplit] at hx
    · intro x hx
      simp [charSplit] at hx
    · intro h
      rcases h with h | h
      · simpa [charSplit] using h
      · exact absurd rfl h
    · simp [charSplit]
  | cons ch rest ih =>
    intro sub ls
    by_cases hpush : mw < meas (sub ++ [ch])
    · obtain ⟨ih1, ih2, ih3, ih4, ih5, ih6, ih7, ih8, ih9, ih10⟩ :=
        ih [ch] (ls + sub.length)

      simp only [charSplit, hpush, if_true]
      have hchne : ([ch] : List Char) ≠ [] := by simp
      refine ⟨by simpa using ih1, ?_, ?_, ?_, ?_, ?_, ?_, ?_, ?_, ?_⟩
      · have h2 := ih2
        simp only [List.length_cons, List.length_nil] at h2 ⊢
        omega
      · omega
      · intro h
        simp at h
      · intro _
        simp
      · intro p hp
        rw [List.zip_cons_cons, List.mem_cons] at hp
        rcases hp with hp | hp
        · subst hp
          exact ⟨le_refl ls, ih3⟩
        · obtain ⟨hp1, hp2⟩ := ih6 p hp
          exact ⟨by omega, hp2⟩
      · intro hsub x hx
        rw [List.mem_cons] at hx
        rcases hx with hx | hx
        · exact hx ▸ hsub
        · exact ih7 hchne x hx
      · intro x hx
        simp only [List.tail_cons] at hx
        exact ih7 hchne x hx
      · intro _
        exact ih9 (Or.inl hchne)
      · rw [List.zip_cons_cons]
        rw [List.chain'_cons']
        constructor
        · intro y hy
          have hymem : y ∈ (charSplit meas mw rest [ch] (ls + sub.length)).lines.zip
              (charSplit meas mw rest [ch] (ls + sub.length)).idxs :=
            List.mem_of_mem_head? hy
          have hy1 := (List.of_mem_zip hymem).1
          constructor
          · exact (ih6 y hymem).1
          · intro _ hy2
            exact absurd hy2 (ih7 hchne y.1 hy1)
        · exact ih10
    · obtain ⟨ih1, ih2, ih3, ih4, ih5, ih6, ih7, ih8, ih9, ih10⟩ :=
        ih (sub ++ [ch]) ls
      simp only [charSplit, hpush, if_false]
      have hsne : sub ++ [ch] ≠ [] := by simp
      refine ⟨ih1, ?_, ih3, ?_, ih5, ih6, ?_, ih8, ?_, ih10⟩
      · simp only [List.length_append, List.length_cons, List.length_nil] at ih2 ⊢
        omega
      · intro h
        obtain ⟨h1, h2⟩ := ih4 h
        refine ⟨h1, ?_⟩
        rw [h2]
        simp
      · intro _ x hx
        exact ih7 hsne x hx
      · intro _
        exact ih9 (Or.inl hsne)

theorem tailGlue_length (ws : List (List Char)) :
    (tailGlue ws).length = restLen ws := by
  induction ws with
  | nil => rfl
  | cons w t ih =>
    simp only [tailGlue, restLen, List.length_cons, List.length_append,
      List.map_cons, List.sum_cons] at ih ⊢
    omega

theorem joinC_cons_length (w : List Char) (ws : List (List Char)) :
    (joinC ' ' (w :: ws)).length = w.length + restLen ws := by
  rw [joinC_cons_eq_tailGlue]
  simp [tailGlue_length]

theorem getLast?_mem (l : List (List Char × ℕ)) (x : List Char × ℕ)
    (h : l.getLast? = some x) : x ∈ l := by
  induction l with
  | nil => simp at h
  | cons a t ih =>
    cases t with
    | nil =>
      simp only [List.getLast?_singleton, Option.some.injEq] at h
      simp [h]
    | cons b u =>
      rw [List.getLast?_cons_cons] at h
      exact List.mem_cons_of_mem a (ih h)

theorem getLast?_mem_tail (l : List (List Char × ℕ)) (x : List Char × ℕ)
    (h : l.getLast? = some x) (hlen : 2 ≤ l.length) : x ∈ l.tail := by
  cases l with
  | nil => simp at h
  | cons a t =>
    cases t with
    | nil => simp at hlen
    | cons b u =>
      rw [List.getLast?_cons_cons] at h
      simpa using getLast?_mem _ x h

theorem zip_tail (l : List (List Char)) (l' : List ℕ) :
    (l.zip l').tail = l.tail.zip l'.tail := by
  cases l with
  | nil => simp
  | cons a t =>
    cases l' with
    | nil => simp
    | cons b u => simp

theorem restLen_cons (w : List Char) (ws : List (List Char)) :
    restLen (w :: ws) = 1 + w.length + restLen ws := by
  simp [restLen]

theorem wrapPara_facts (meas : List Char → ℚ) (mw : ℚ) (ws : List (List Char)) :
    ∀ (c : List Char) (ls : ℕ),
      (wrapPara meas mw ws c ls).1 ≠ [] ∧
      (wrapPara meas mw ws c ls).2.length = (wrapPara meas mw ws c ls).1.length ∧
      (wrapPara meas mw ws c ls).2.head? = some ls ∧
      (c ≠ [] → ∀ x ∈ (wrapPara meas mw ws c ls).1.head?, x ≠ []) ∧
      List.Chain' wRel ((wrapPara meas mw ws c ls).1.zip (wrapPara meas mw ws c ls).2) ∧
      (∀ p ∈ (wrapPara meas mw ws c ls).1.zip (wrapPara meas mw ws c ls).2,
        ls ≤ p.2 ∧ p.2 + p.1.length ≤ ls +
          (if c = [] then (joinC ' ' ws).length else c.length + restLen ws)) := by
  induction ws with
  | nil =>
    intro c ls
    refine ⟨by simp [wrapPara], by simp [wrapPara], by simp [wrapPara], ?_, ?_, ?_⟩
    · intro hc x hx
      simp only [wrapPara, List.head?_cons, Option.mem_def, Option.some.injEq] at hx
      exact hx ▸ hc
    · simp [wrapPara]
    · intro p hp
      simp only [wrapPara, List.zip_cons_cons, List.zip_nil_right, List.mem_singleton] at hp
      subst hp
      by_cases hc : c = []
      · simp [hc, joinC]
      · simp only [hc, if_neg]
        simp [restLen]
  | cons w ws ih =>
    intro c ls
    by_cases hc : c = []
    · subst hc
      by_cases hov : mw < meas w
      · -- char-split branch
        have hgoal : wrapPara meas mw (w :: ws) [] ls =
            ((charSplit meas mw w [] ls).lines ++
              (wrapPara meas mw ws (charSplit meas mw w [] ls).sub
                (charSplit meas mw w [] ls).lineStart).1,
             (charSplit meas mw w [] ls).idxs ++
              (wrapPara meas mw ws (charSplit meas mw w [] ls).sub
                (charSplit meas mw w [] ls).lineStart).2) := by
          rw [wrapPara]
          simp only [eq_self_iff_true, if_true]
          rw [if_pos hov]
        obtain ⟨cs1, cs2, cs3, cs4, cs5, cs6, cs7, cs8, cs9, cs10⟩ :=
          charSplit_facts meas mw w [] ls
        obtain ⟨ihr1, ihr2, ihr3, ihr4, ihr5, ihr6⟩ :=
          ih (charSplit meas mw w [] ls).sub (charSplit meas mw w [] ls).lineStart
        rw [hgoal]
        have hzip : ((charSplit meas mw w [] ls).lines ++
            (wrapPara meas mw ws (charSplit meas mw w [] ls).sub
              (charSplit meas mw w [] ls).lineStart).1).zip
            ((charSplit meas mw w [] ls).idxs ++
             (wrapPara meas mw ws (charSplit meas mw w [] ls).sub
              (charSplit meas mw w [] ls).lineStart).2) =
            (charSplit meas mw w [] ls).lines.zip (charSplit meas mw w [] ls).idxs ++
            (wrapPara meas mw ws (charSplit meas mw w [] ls).sub
              (charSplit meas mw w [] ls).lineStart).1.zip
              (wrapPara meas mw ws (charSplit meas mw w [] ls).sub
                (charSplit meas mw w [] ls).lineStart).2 :=
          List.zip_append cs1.symm
        refine ⟨by simp [ihr1], ?_, ?_, ?_, ?_, ?_⟩
        · simp [List.length_append, cs1, ihr2]
        · -- head index
          cases hcs : (charSplit meas mw w [] ls).lines with
          | nil =>
            have hidx : (charSplit meas mw w [] ls).idxs = [] := by
              have := cs1
              rw [hcs] at this
              simpa using List.length_eq_zero.mp (by simpa using this)
            obtain ⟨hls, _⟩ := cs4 hcs
            rw [hidx]
            simpa [hls] using ihr3
          | cons a t =>
            have hne : (charSplit meas mw w [] ls).lines ≠ [] := by rw [hcs]; simp
            have := cs5 hne
            cases hidx : (charSplit meas mw w [] ls).idxs with
            | nil => rw [hidx] at this; simp at this
            | cons b u =>
              rw [hidx] at this
              simp only [List.head?_cons, Option.some.injEq] at this
              simpa using this
        · intro h
          exact absurd rfl h
        · -- chain
          rw [hzip]
          rw [List.chain'_append]
          refine ⟨cs10, ihr5, ?_⟩
          intro x hx y hy
          have hxmem : x ∈ (charSplit meas mw w [] ls).lines.zip
              (charSplit meas mw w [] ls).idxs := getLast?_mem _ x hx
          have hxline := (List.of_mem_zip hxmem).1
          have hwne : w ≠ [] := by
            intro hw0
            subst hw0
            simp [charSplit] at hxline
          have hsubne : (charSplit meas mw w [] ls).sub ≠ [] := cs9 (Or.inr hwne)
          have hy1 : y ∈ ((wrapPara meas mw ws (charSplit meas mw w [] ls).sub
              (charSplit meas mw w [] ls).lineStart).1.zip
              (wrapPara meas mw ws (charSplit meas mw w [] ls).sub
                (charSplit meas mw w [] ls).lineStart).2) := List.mem_of_mem_head? hy
          constructor
          · have h1 := (cs6 x hxmem).2
            have h2 := (ihr6 y hy1).1
            omega
          · intro _ hy2
            -- the first line after a char split is nonempty
            cases hrl : (wrapPara meas mw ws (charSplit meas mw w [] ls).sub
                (charSplit meas mw w [] ls).lineStart).1 with
            | nil =>
              exact absurd hrl ihr1
            | cons a t =>
              cases hri : (wrapPara meas mw ws (charSplit meas mw w [] ls).sub
                  (charSplit meas mw w [] ls).lineStart).2 with
              | nil =>
                rw [hrl, hri] at ihr2
                simp at ihr2
              | cons b u =>
                rw [hrl, hri] at hy
                simp only [List.zip_cons_cons, List.head?_cons, Option.mem_def,
                  Option.some.injEq] at hy
                have ha : a ≠ [] := by
                  apply ihr4 hsubne
                  rw [hrl]
                  simp
                rw [← hy] at hy2
                exact absurd hy2 ha
        · -- bounds
          intro p hp
          rw [hzip, List.mem_append] at hp
          have hjoin : (joinC ' ' (w :: ws)).length = w.length + restLen ws :=
            joinC_cons_length w ws
          rcases hp with hp | hp
          · obtain ⟨h1, h2⟩ := cs6 p hp
            have hext := cs2
            simp only [List.length_nil] at hext
            refine ⟨h1, ?_⟩
            simp only [eq_self_iff_true, if_true, hjoin]
            omega
          · obtain ⟨h1, h2⟩ := ihr6 p hp
            have hext := cs2
            simp only [List.length_nil] at hext
            constructor
            · omega
            · simp only [eq_self_iff_true, if_true, hjoin]
              by_cases hs : (charSplit meas mw w [] ls).sub = []
              · rw [if_pos hs] at h2
                have := joinC_length_le ' ' ws
                rw [hs] at hext
                simp at hext
                omega
              · rw [if_neg hs] at h2
                omega
      · -- fits: the test line is the word itself
        have hgoal : wrapPara meas mw (w :: ws) [] ls = wrapPara meas mw ws w ls := by
          rw [wrapPara]
          simp only [eq_self_iff_true, if_true]
          rw [if_neg hov]
        obtain ⟨ihr1, ihr2, ihr3, ihr4, ihr5, ihr6⟩ := ih w ls
        rw [hgoal]
        refine ⟨ihr1, ihr2, ihr3, ?_, ihr5, ?_⟩
        · intro h
          exact absurd rfl h
        · intro p hp
          obtain ⟨h1, h2⟩ := ihr6 p hp
          refine ⟨h1, ?_⟩
          simp only [eq_self_iff_true, if_true, joinC_cons_length]
          by_cases hw : w = []
          · rw [if_pos hw] at h2
            have := joinC_length_le ' ' ws
            rw [hw]
            simp only [List.length_nil]
            omega
          · rw [if_neg hw] at h2
            omega
    · -- current line nonempty: the test line is c ++ ' ' :: w
      by_cases hov : mw < meas (c ++ ' ' :: w)
      · -- push current line
        have hgoal : wrapPara meas mw (w :: ws) c ls =
            (c :: (wrapPara meas mw ws w (ls + c.length + 1)).1,
             ls :: (wrapPara meas mw ws w (ls + c.length + 1)).2) := by
          rw [wrapPara]
          simp only [if_neg hc]
          rw [if_pos hov]
        obtain ⟨ihr1, ihr2, ihr3, ihr4, ihr5, ihr6⟩ := ih w (ls + c.length + 1)
        rw [hgoal]
        refine ⟨by simp, by simp [ihr2], by simp, ?_, ?_, ?_⟩
        · intro _ x hx
          simp only [List.head?_cons, Option.mem_def, Option.some.injEq] at hx
          exact hx ▸ hc
        · rw [List.zip_cons_cons, List.chain'_cons']
          refine ⟨?_, ihr5⟩
          intro y hy
          have hymem := List.mem_of_mem_head? hy
          have h1 := (ihr6 y hymem).1
          refine ⟨?_, fun hcc _ => absurd hcc hc⟩
          show ls + c.length ≤ y.2
          omega
        · intro p hp
          rw [List.zip_cons_cons, List.mem_cons] at hp
          rcases hp with hp | hp
          · subst hp
            refine ⟨le_refl ls, ?_⟩
            show ls + c.length ≤ ls + if c = [] then (joinC ' ' (w :: ws)).length
              else c.length + restLen (w :: ws)
            simp only [if_neg hc, restLen_cons]
            omega
          · obtain ⟨h1, h2⟩ := ihr6 p hp
            refine ⟨by omega, ?_⟩
            simp only [if_neg hc, restLen_cons]
            have hj := joinC_length_le ' ' ws
            by_cases hw : w = []
            · rw [if_pos hw] at h2
              subst hw
              simp only [List.length_nil] at h2 ⊢
              omega
            · rw [if_neg hw] at h2
              omega
      · -- fits: extend the current line
        have hgoal : wrapPara meas mw (w :: ws) c ls =
            wrapPara meas mw ws (c ++ ' ' :: w) ls := by
          rw [wrapPara]
          simp only [if_neg hc]
          rw [if_neg hov]
        obtain ⟨ihr1, ihr2, ihr3, ihr4, ihr5, ihr6⟩ := ih (c ++ ' ' :: w) ls
        have htne : c ++ ' ' :: w ≠ [] := by simp
        rw [hgoal]
        refine ⟨ihr1, ihr2, ihr3, ?_, ihr5, ?_⟩
        · intro _ x hx
          exact ihr4 htne x hx
        · intro p hp
          obtain ⟨h1, h2⟩ := ihr6 p hp
          refine ⟨h1, ?_⟩
          rw [if_neg htne] at h2
          simp only [if_neg hc, restLen, List.map_cons, List.sum_cons]
          simp only [List.length_append, List.length_cons, restLen] at h2
          omega

theorem wrapParas_facts (meas : List Char → ℚ) (mw : ℚ) (ps : List (List Char)) :
    ∀ (cg : ℕ),
      (wrapParas meas mw ps cg).2.length = (wrapParas meas mw ps cg).1.length ∧
      (ps ≠ [] → (wrapParas meas mw ps cg).1 ≠ [] ∧
        (wrapParas meas mw ps cg).2.head? = some cg) ∧
      List.Chain' wRel ((wrapParas meas mw ps cg).1.zip (wrapParas meas mw ps cg).2) ∧
      (∀ p ∈ (wrapParas meas mw ps cg).1.zip (wrapParas meas mw ps cg).2,
        cg ≤ p.2 ∧ p.2 + p.1.length ≤ cg + (joinC '\n' ps).length) := by
  induction ps with
  | nil =>
    intro cg
    refine ⟨rfl, fun h => absurd rfl h, by simp [wrapParas], ?_⟩
    intro p hp
    simp [wrapParas] at hp
  | cons q ps ih =>
    intro cg
    obtain ⟨wp1, wp2, wp3, wp4, wp5, wp6⟩ :=
      wrapPara_facts meas mw (splitChar ' ' q) [] cg
    obtain ⟨ih1, ih2, ih3, ih4⟩ := ih (cg + q.length + 1)
    have hqlen : (joinC ' ' (splitChar ' ' q)).length = q.length := by
      rw [joinC_splitChar]
    have hgoal : wrapParas meas mw (q :: ps) cg =
        ((wrapPara meas mw (splitChar ' ' q) [] cg).1 ++
          (wrapParas meas mw ps (cg + q.length + 1)).1,
         (wrapPara meas mw (splitChar ' ' q) [] cg).2 ++
          (wrapParas meas mw ps (cg + q.length + 1)).2) := by
      rw [wrapParas]
    rw [hgoal]
    have hwp6 : ∀ p ∈ (wrapPara meas mw (splitChar ' ' q) [] cg).1.zip
        (wrapPara meas mw (splitChar ' ' q) [] cg).2,
        cg ≤ p.2 ∧ p.2 + p.1.length ≤ cg + q.length := by
      intro p hp
      obtain ⟨h1, h2⟩ := wp6 p hp
      rw [if_pos rfl, hqlen] at h2
      exact ⟨h1, h2⟩
    have hjcons : ps ≠ [] →
        (joinC '\n' (q :: ps)).length = q.length + 1 + (joinC '\n' ps).length := by
      intro hps
      cases ps with
      | nil => exact absurd rfl hps
      | cons x t => exact joinC_length_cons '\n' q x t
    have hzip : ((wrapPara meas mw (splitChar ' ' q) [] cg).1 ++
        (wrapParas meas mw ps (cg + q.length + 1)).1).zip
        ((wrapPara meas mw (splitChar ' ' q) [] cg).2 ++
         (wrapParas meas mw ps (cg + q.length + 1)).2) =
        (wrapPara meas mw (splitChar ' ' q) [] cg).1.zip
          (wrapPara meas mw (splitChar ' ' q) [] cg).2 ++
        (wrapParas meas mw ps (cg + q.length + 1)).1.zip
          (wrapParas meas mw ps (cg + q.length + 1)).2 :=
      List.zip_append wp2.symm
    refine ⟨?_, ?_, ?_, ?_⟩
    · simp [List.length_append, wp2, ih1]
    · intro _
      constructor
      · simp [wp1]
      · cases hr2 : (wrapPara meas mw (splitChar ' ' q) [] cg).2 with
        | nil =>
          rw [hr2] at wp2
          simp only [List.length_nil] at wp2
          exact absurd (List.length_eq_zero.mp wp2.symm) wp1
        | cons b u =>
          rw [hr2] at wp3
          simp only [List.head?_cons, Option.some.injEq] at wp3
          simp [wp3]
    · rw [hzip, List.chain'_append]
      refine ⟨wp5, ih3, ?_⟩
      intro x hx y hy
      have hxmem := getLast?_mem _ x hx
      have hymem := List.mem_of_mem_head? hy
      have h1 := (hwp6 x hxmem).2
      have h2 := (ih4 y hymem).1
      exact ⟨by omega, fun _ _ => by omega⟩
    · intro p hp
      rw [hzip, List.mem_append] at hp
      have hqle : q.length ≤ (joinC '\n' (q :: ps)).length := by
        cases ps with
        | nil => simp [joinC]
        | cons x t =>
          rw [joinC_length_cons]
          omega
      rcases hp with hp | hp
      · obtain ⟨h1, h2⟩ := hwp6 p hp
        exact ⟨h1, by omega⟩
      · obtain ⟨h1, h2⟩ := ih4 p hp
        have hps : ps ≠ [] := by
          intro h0
          subst h0
          simp [wrapParas] at hp
        have := hjcons hps
        exact ⟨by omega, by omega⟩

theorem wrapOnce_facts (meas : List Char → ℚ) (mw : ℚ) (text : List Char) :
    (wrapOnce meas mw text).1 ≠ [] ∧
    (wrapOnce meas mw text).2.length = (wrapOnce meas mw text).1.length ∧
    (wrapOnce meas mw text).2.head? = some 0 ∧
    List.Chain' wRel ((wrapOnce meas mw text).1.zip (wrapOnce meas mw text).2) ∧
    (∀ p ∈ (wrapOnce meas mw text).1.zip (wrapOnce meas mw text).2,
      p.2 + p.1.length ≤ text.length) := by
  obtain ⟨h1, h2, h3, h4⟩ := wrapParas_facts meas mw (splitChar '\n' text) 0
  obtain ⟨h2a, h2b⟩ := h2 (splitChar_ne_nil '\n' text)
  refine ⟨h2a, h1, h2b, h3, ?_⟩
  intro p hp
  have := (h4 p hp).2
  rw [joinC_splitChar] at this
  omega

theorem getD_drop_nat (l : List ℕ) (m n : ℕ) :
    (l.drop m).getD n 0 = l.getD (m + n) 0 := by
  induction l generalizing m with
  | nil => simp
  | cons a t ih =>
    cases m with
    | zero => simp
    | succ k =>
      rw [List.drop_succ_cons]
      rw [ih k]
      simp [Nat.succ_add]

theorem getD_drop_lines (l : List (List Char)) (m n : ℕ) :
    (l.drop m).getD n [] = l.getD (m + n) [] := by
  induction l generalizing m with
  | nil => simp
  | cons a t ih =>
    cases m with
    | zero => simp
    | succ k =>
      rw [List.drop_succ_cons]
      rw [ih k]
      simp [Nat.succ_add]

theorem zip_getD_mem (L : List (List Char)) (I : List ℕ) (k : ℕ)
    (hlen : I.length = L.length) (hk : k < I.length) :
    (L.getD k [], I.getD k 0) ∈ L.zip I := by
  induction L generalizing I k with
  | nil => rw [List.length_nil] at hlen; omega
  | cons a t ih =>
    cases I with
    | nil => simp at hk
    | cons b u =>
      cases k with
      | zero => simp
      | succ m =>
        simp only [List.getD_cons_succ, List.zip_cons_cons]
        refine List.mem_cons_of_mem _ ?_
        refine ih u m ?_ ?_
        · simpa using hlen
        · simpa using hk

theorem chain_zip_adj (L : List (List Char)) (I : List ℕ)
    (hlen : I.length = L.length)
    (hch : List.Chain' wRel (L.zip I)) (k : ℕ) (hk : k + 1 < I.length) :
    I.getD k 0 + (L.getD k []).length ≤ I.getD (k + 1) 0 ∧
    (L.getD k [] = [] → L.getD (k + 1) [] = [] → I.getD k 0 < I.getD (k + 1) 0) := by
  induction L generalizing I k with
  | nil => rw [List.length_nil] at hlen; omega
  | cons a t ih =>
    cases I with
    | nil => simp at hk
    | cons b u =>
      cases k with
      | zero =>
        cases t with
        | nil =>
          exfalso
          simp at hlen
          subst hlen
          simp at hk
        | cons a2 t2 =>
          cases u with
          | nil =>
            exfalso
            simp at hlen
          | cons b2 u2 =>
            simp only [List.zip_cons_cons] at hch
            have hrel := (List.chain'_cons'.mp hch).1
            have := hrel (a2, b2) (by simp)
            simpa [wRel] using this
      | succ m =>
        cases t with
        | nil =>
          exfalso
          simp at hlen
          subst hlen
          simp at hk
        | cons a2 t2 =>
          cases u with
          | nil =>
            exfalso
            simp at hk
          | cons b2 u2 =>
            simp only [List.zip_cons_cons] at hch
            have hch' := (List.chain'_cons'.mp hch).2
            simp only [List.getD_cons_succ]
            exact ih (b2 :: u2) (by simpa using hlen) (by simpa using hch') m
              (by simpa using hk)

/-- Two positions apart, the start offsets strictly increase: the key
no-overlap fact for the pager. -/
theorem chain_zip_stride2 (L : List (List Char)) (I : List ℕ)
    (hlen : I.length = L.length)
    (hch : List.Chain' wRel (L.zip I)) (k : ℕ) (hk : k + 2 < I.length) :
    I.getD k 0 < I.getD (k + 2) 0 := by
  obtain ⟨h1a, h1b⟩ := chain_zip_adj L I hlen hch k (by omega)
  obtain ⟨h2a, h2b⟩ := chain_zip_adj L I hlen hch (k + 1) (by omega)
  have hE : k + 1 + 1 = k + 2 := by omega
  rw [hE] at h2a h2b
  by_cases he1 : L.getD k [] = []
  · by_cases he2 : L.getD (k + 1) [] = []
    · have := h1b he1 he2
      omega
    · have : 0 < (L.getD (k + 1) []).length := List.length_pos.mpr he2
      omega
  · have : 0 < (L.getD k []).length := List.length_pos.mpr he1
    omega

/-- Every state reached past the first iteration of the font-descent
loop carries a `wrapOnce` output, so the final `WrapResult` is the
single-pass wrap at some font size. -/
theorem wrapLoop_out (meas : ℚ → List Char → ℚ) (text : List Char)
    (mw mh lhf : ℚ) :
    ∀ (fuel : ℕ) (fs : ℚ) (ls : List (List Char)) (is : List ℕ) (lh : ℚ),
      10 ≤ fs → 1 ≤ fuel →
      ∃ g, (wrapLoop meas text mw mh lhf fuel fs ls is lh).lines =
             (wrapOnce (meas g) mw text).1 ∧
           (wrapLoop meas text mw mh lhf fuel fs ls is lh).lineStartIndices =
             (wrapOnce (meas g) mw text).2 := by
  intro fuel
  induction fuel with
  | zero => intro fs ls is lh _ h; omega
  | succ n ih =>
    intro fs ls is lh h10 _
    rw [wrapLoop, if_neg (not_lt.mpr h10)]
    by_cases hacc : ((wrapOnce (meas fs) mw text).1.length : ℚ) * (fs * lhf) ≤ mh ∨ fs = 10
    · rw [if_pos hacc]
      exact ⟨fs, rfl, rfl⟩
    · rw [if_neg hacc]
      by_cases hrec : 10 ≤ fs - 1 ∧ 1 ≤ n
      · exact ih (fs - 1) _ _ _ hrec.1 hrec.2
      · refine ⟨fs, ?_⟩
        cases n with
        | zero => exact ⟨rfl, rfl⟩
        | succ m =>
          have hlt : fs - 1 < 10 := by
            rcases not_and_or.mp hrec with h | h
            · linarith [not_le.mp h]
            · omega
          rw [wrapLoop, if_pos hlt]
          exact ⟨rfl, rfl⟩

theorem getWrappedLines_out (meas : ℚ → List Char → ℚ) (text : List Char)
    (mw mh lhf base : ℚ) (hb : 10 ≤ base) :
    ∃ g, (getWrappedLines meas text mw mh base lhf).lines =
           (wrapOnce (meas g) mw text).1 ∧
         (getWrappedLines meas text mw mh base lhf).lineStartIndices =
           (wrapOnce (meas g) mw text).2 := by
  rw [getWrappedLines]
  have hceil : (10:ℤ) ≤ ⌈base⌉ := by
    have h1 : base ≤ (⌈base⌉ : ℚ) := Int.le_ceil base
    have h2 : (10:ℚ) ≤ (⌈base⌉ : ℚ) := le_trans hb h1
    exact_mod_cast h2
  exact wrapLoop_out meas text mw mh lhf (⌈base⌉ - 9).toNat base [] []
    (base * lhf) hb (by omega)

/-! ## Subtitle pager (VideoEditor.tsx lines 285-302) -/

/-- A page of at most two wrapped lines with its half-open active
character range `[startChar, endChar)`. -/
structure Page where
  plines : List (List Char)
  pindices : List ℕ
  startChar : ℕ
  endChar : ℕ

/-- The paging loop (VideoEditor.tsx lines 289-295): `linesPerPage = 2`;
each page's `startChar` is its first line's offset and its `endChar` is
the next page's first offset, or `text.length + 1` for the last page.
(`pIndices[0]` is modelled by `headD 0`; the pager is only invoked with
index lists of the same length as the line list, where it is never the
default.) -/
def buildPages : List (List Char) → List ℕ → ℕ → List Page
  | [], _, _ => []
  | [l], is, tlen => [⟨[l], is.take 2, is.headD 0, tlen + 1⟩]
  | l₁ :: l₂ :: rest, is, tlen =>
    ⟨[l₁, l₂], is.take 2, is.headD 0,
      if rest = [] then tlen + 1 else is.getD 2 0⟩ ::
    buildPages rest (is.drop 2) tlen

theorem headD_eq_getD (l : List ℕ) : l.headD 0 = l.getD 0 0 := by
  cases l <;> rfl

theorem getLast?_cons_of_ne (a : Page) (l : List Page) (h : l ≠ []) :
    (a :: l).getLast? = l.getLast? := by
  cases l with
  | nil => exact absurd rfl h
  | cons b u => exact List.getLast?_cons_cons

theorem buildPages_facts (tlen : ℕ) :
    ∀ (n : ℕ) (L : List (List Char)) (I : List ℕ),
      L.length ≤ n →
      I.length = L.length →
      (∀ k, k + 1 < I.length → I.getD k 0 ≤ I.getD (k + 1) 0) →
      (∀ k, k + 2 < I.length → I.getD k 0 < I.getD (k + 2) 0) →
      (∀ k, k < I.length → I.getD k 0 ≤ tlen) →
      (L ≠ [] → buildPages L I tlen ≠ []) ∧
      (∀ pg ∈ (buildPages L I tlen).head?, pg.startChar = I.headD 0) ∧
      List.Chain' (fun a b => a.endChar = b.startChar) (buildPages L I tlen) ∧
      (∀ pg ∈ (buildPages L I tlen).getLast?, pg.endChar = tlen + 1) ∧
      (∀ pg ∈ buildPages L I tlen, pg.startChar < pg.endChar) := by
  intro n
  induction n with
  | zero =>
    intro L I hn _ _ _ _
    have : L = [] := List.length_eq_zero.mp (by omega)
    subst this
    refine ⟨fun h => absurd rfl h, ?_, ?_, ?_, ?_⟩
    · intro pg hpg
      simp [buildPages] at hpg
    · simp [buildPages]
    · intro pg hpg
      simp [buildPages] at hpg
    · intro pg hpg
      simp [buildPages] at hpg
  | succ m ih =>
    intro L I hn hlen hmono hstride hbnd
    match L with
    | [] =>
      refine ⟨fun h => absurd rfl h, ?_, ?_, ?_, ?_⟩
      · intro pg hpg
        simp [buildPages] at hpg
      · simp [buildPages]
      · intro pg hpg
        simp [buildPages] at hpg
      · intro pg hpg
        simp [buildPages] at hpg
    | [l] =>
      have hI1 : I.length = 1 := by simpa using hlen
      refine ⟨fun _ => by simp [buildPages], ?_, ?_, ?_, ?_⟩
      · intro pg hpg
        simp only [buildPages, List.head?_cons, Option.mem_def, Option.some.injEq] at hpg
        rw [← hpg]
      · simp [buildPages]
      · intro pg hpg
        simp only [buildPages, List.getLast?_singleton, Option.mem_def,
          Option.some.injEq] at hpg
        rw [← hpg]
      · intro pg hpg
        simp only [buildPages, List.mem_singleton] at hpg
        subst hpg
        simp only
        rw [headD_eq_getD]
        have := hbnd 0 (by omega)
        omega
    | l₁ :: l₂ :: rest =>
      have hrest : rest.length ≤ m := by
        simp only [List.length_cons] at hn
        omega
      have hIlen : (I.drop 2).length = rest.length := by
        rw [List.length_drop, hlen]
        simp only [List.length_cons]
        omega
      obtain ⟨ih1, ih2, ih3, ih4, ih5⟩ := ih rest (I.drop 2) hrest hIlen
        (fun k hk => by
          rw [getD_drop_nat, getD_drop_nat]
          have : 2 + k + 1 < I.length := by rw [List.length_drop] at hk; omega
          exact hmono (2 + k) (by omega))
        (fun k hk => by
          rw [getD_drop_nat, getD_drop_nat]
          have : 2 + k + 2 < I.length := by rw [List.length_drop] at hk; omega
          exact hstride (2 + k) (by omega))
        (fun k hk => by
          rw [getD_drop_nat]
          have : 2 + k < I.length := by rw [List.length_drop] at hk; omega
          exact hbnd (2 + k) this)
      have hI2 : 2 ≤ I.length := by
        rw [hlen]
        simp only [List.length_cons]
        omega
      refine ⟨fun _ => by simp [buildPages], ?_, ?_, ?_, ?_⟩
      · intro pg hpg
        simp only [buildPages, List.head?_cons, Option.mem_def, Option.some.injEq] at hpg
        rw [← hpg]
      · rw [buildPages]
        by_cases hrn : rest = []
        · subst hrn
          simp [buildPages]
        · rw [List.chain'_cons']
          refine ⟨?_, ih3⟩
          intro pg hpg
          have := ih2 pg hpg
          rw [this, if_neg hrn]
          rw [headD_eq_getD (I.drop 2), getD_drop_nat I 2 0]
      · intro pg hpg
        by_cases hrn : rest = []
        · subst hrn
          simp only [buildPages, List.getLast?_singleton, Option.mem_def,
            Option.some.injEq] at hpg
          rw [← hpg]
          simp
        · have hbp : buildPages rest (I.drop 2) tlen ≠ [] := ih1 hrn
          rw [buildPages, getLast?_cons_of_ne _ _ hbp] at hpg
          exact ih4 pg hpg
      · intro pg hpg
        rw [buildPages, List.mem_cons] at hpg
        rcases hpg with hpg | hpg
        · subst hpg
          simp only
          rw [headD_eq_getD]
          by_cases hrn : rest = []
          · rw [if_pos hrn]
            have := hbnd 0 (by omega)
            omega
          · rw [if_neg hrn]
            have h2lt : 2 < I.length := by
              rw [hlen]
              simp only [List.length_cons]
              have := List.length_pos.mpr hrn
              omega
            exact hstride 0 (by omega)
        · exact ih5 pg hpg

/-- From the chained page structure: all pages start at or after `s`,
every position in `[s, tlen+1)` is covered, and the ranges are pairwise
disjoint. -/
theorem pagesChain_props :
    ∀ (pages : List Page) (s tlen : ℕ),
      (∀ pg ∈ pages.head?, pg.startChar = s) →
      List.Chain' (fun a b => a.endChar = b.startChar) pages →
      (∀ pg ∈ pages.getLast?, pg.endChar = tlen + 1) →
      (∀ pg ∈ pages, pg.startChar < pg.endChar) →
      pages ≠ [] →
      (∀ pg ∈ pages, s ≤ pg.startChar) ∧
      (∀ n, s ≤ n → n < tlen + 1 → ∃ pg ∈ pages, pg.startChar ≤ n ∧ n < pg.endChar) ∧
      List.Pairwise (fun a b => a.endChar ≤ b.startChar) pages := by
  intro pages
  induction pages with
  | nil =>
    intro s tlen _ _ _ _ hne
    exact absurd rfl hne
  | cons a rest ih =>
    intro s tlen hhead hchain hlast hlt _
    have has : a.startChar = s := hhead a (by simp)
    cases rest with
    | nil =>
      have hae : a.endChar = tlen + 1 := hlast a (by simp)
      refine ⟨?_, ?_, by simp⟩
      · intro pg hpg
        rw [List.mem_singleton] at hpg
        subst hpg
        omega
      · intro n hn1 hn2
        exact ⟨a, by simp, by omega, by omega⟩
    | cons b rest2 =>
      have hab : a.endChar = b.startChar := (List.chain'_cons.mp hchain).1
      have hchain2 : List.Chain' (fun a b => a.endChar = b.startChar) (b :: rest2) :=
        (List.chain'_cons.mp hchain).2
      have hlast2 : ∀ pg ∈ (b :: rest2).getLast?, pg.endChar = tlen + 1 := by
        intro pg hpg
        apply hlast
        rw [getLast?_cons_of_ne a (b :: rest2) (by simp)]
        exact hpg
      have hlt2 : ∀ pg ∈ (b :: rest2), pg.startChar < pg.endChar := by
        intro pg hpg
        exact hlt pg (List.mem_cons_of_mem a hpg)
      obtain ⟨ihs, ihc, ihp⟩ := ih a.endChar tlen
        (by intro pg hpg; simp only [List.head?_cons, Option.mem_def,
              Option.some.injEq] at hpg; rw [← hpg, hab])
        hchain2 hlast2 hlt2 (by simp)
      have haste : a.startChar < a.endChar := hlt a (by simp)
      refine ⟨?_, ?_, ?_⟩
      · intro pg hpg
        rw [List.mem_cons] at hpg
        rcases hpg with hpg | hpg
        · subst hpg; omega
        · have := ihs pg hpg
          omega
      · intro n hn1 hn2
        by_cases hcase : n < a.endChar
        · exact ⟨a, by simp, by omega, hcase⟩
        · obtain ⟨pg, hpg1, hpg2⟩ := ihc n (by omega) hn2
          exact ⟨pg, List.mem_cons_of_mem a hpg1, hpg2⟩
      · rw [List.pairwise_cons]
        refine ⟨?_, ihp⟩
        intro pg hpg
        exact ihs pg hpg

/-- The subtitle pager applied to the layout result for the primary
track (drawTextBlock lines 285-295, for the animation modes that do not
rewrite the text, where `processedText = text`). -/
def pagerOf (meas : ℚ → List Char → ℚ) (text : List Char)
    (mw mh base lhf : ℚ) : List Page :=
  buildPages (getWrappedLines meas text mw mh base lhf).lines
    (getWrappedLines meas text mw mh base lhf).lineStartIndices text.length

/-- C4 counterexample: with `baseFontSize = 9` the wrap loop never runs,
the line list is empty, and the pager produces no pages at all — so the
union of the pages' ranges is empty and does not equal
`[0, text.length + 1)`. -/
theorem claim4_counterexample :
    pagerOf (fun _ _ => 0) ['a'] 100 100 9 1 = [] ∧
    0 < (['a'] : List Char).length + 1 ∧
    ¬ ∃ pg ∈ pagerOf (fun _ _ => 0) ['a'] 100 100 9 1,
        pg.startChar ≤ 0 ∧ 0 < pg.endChar := by
  have h : pagerOf (fun _ _ => (0:ℚ)) ['a'] 100 100 9 1 = [] := by
    norm_num [pagerOf, getWrappedLines, wrapLoop, buildPages]
  refine ⟨h, by norm_num, ?_⟩
  rw [h]
  simp

/-- C4 (amended): whenever the base font size is at least the minimum
(10), the pager's pages have contiguous half-open ranges — the first
page starts at 0, each page ends where the next begins, the last page
ends at `text.length + 1`, every page's range is non-empty — and
together they cover `[0, text.length + 1)` with pairwise disjoint
ranges (no gaps, no overlaps).  For base sizes below 10 the wrap result
has no lines and the pager returns no pages (see the counterexample). -/
theorem claim4_pager_partition (meas : ℚ → List Char → ℚ) (text : List Char)
    (mw mh base lhf : ℚ) (hb : 10 ≤ base) :
    pagerOf meas text mw mh base lhf ≠ [] ∧
    (∀ pg ∈ (pagerOf meas text mw mh base lhf).head?, pg.startChar = 0) ∧
    List.Chain' (fun a b => a.endChar = b.startChar) (pagerOf meas text mw mh base lhf) ∧
    (∀ pg ∈ (pagerOf meas text mw mh base lhf).getLast?,
      pg.endChar = text.length + 1) ∧
    (∀ pg ∈ pagerOf meas text mw mh base lhf, pg.startChar < pg.endChar) ∧
    (∀ n, n < text.length + 1 →
      ∃ pg ∈ pagerOf meas text mw mh base lhf, pg.startChar ≤ n ∧ n < pg.endChar) ∧
    List.Pairwise (fun a b => a.endChar ≤ b.startChar)
      (pagerOf meas text mw mh base lhf) := by
  obtain ⟨g, hg1, hg2⟩ := getWrappedLines_out meas text mw mh lhf base hb
  obtain ⟨w1, w2, w3, w4, w5⟩ := wrapOnce_facts (meas g) mw text
  have hlen : (getWrappedLines meas text mw mh base lhf).lineStartIndices.length =
      (getWrappedLines meas text mw mh base lhf).lines.length := by
    rw [hg1, hg2, w2]
  have hLne : (getWrappedLines meas text mw mh base lhf).lines ≠ [] := by
    rw [hg1]; exact w1
  have hbnd : ∀ k, k < (getWrappedLines meas text mw mh base lhf).lineStartIndices.length →
      (getWrappedLines meas text mw mh base lhf).lineStartIndices.getD k 0 ≤ text.length := by
    intro k hk
    rw [hg2] at hk ⊢
    have hmem := zip_getD_mem (wrapOnce (meas g) mw text).1
      (wrapOnce (meas g) mw text).2 k w2 hk
    have := w5 _ hmem
    simp only at this
    omega
  have hmono : ∀ k, k + 1 < (getWrappedLines meas text mw mh base lhf).lineStartIndices.length →
      (getWrappedLines meas text mw mh base lhf).lineStartIndices.getD k 0 ≤
      (getWrappedLines meas text mw mh base lhf).lineStartIndices.getD (k + 1) 0 := by
    intro k hk
    rw [hg2] at hk ⊢
    have := (chain_zip_adj _ _ w2 w4 k hk).1
    omega
  have hstride : ∀ k, k + 2 < (getWrappedLines meas text mw mh base lhf).lineStartIndices.length →
      (getWrappedLines meas text mw mh base lhf).lineStartIndices.getD k 0 <
      (getWrappedLines meas text mw mh base lhf).lineStartIndices.getD (k + 2) 0 := by
    intro k hk
    rw [hg2] at hk ⊢
    exact chain_zip_stride2 _ _ w2 w4 k hk
  obtain ⟨b1, b2, b3, b4, b5⟩ := buildPages_facts text.length
    ((getWrappedLines meas text mw mh base lhf).lines.length)
    (getWrappedLines meas text mw mh base lhf).lines
    (getWrappedLines meas text mw mh base lhf).lineStartIndices
    (le_refl _) hlen hmono hstride hbnd
  have hpne : pagerOf meas text mw mh base lhf ≠ [] := b1 hLne
  have hheadD : (getWrappedLines meas text mw mh base lhf).lineStartIndices.headD 0 = 0 := by
    rw [hg2]
    cases hI : (wrapOnce (meas g) mw text).2 with
    | nil => rw [hI] at w3; simp at w3
    | cons x u =>
      rw [hI] at w3
      simp only [List.head?_cons, Option.some.injEq] at w3
      simp [w3]
  have hhead0 : ∀ pg ∈ (pagerOf meas text mw mh base lhf).head?, pg.startChar = 0 := by
    intro pg hpg
    have := b2 pg hpg
    rw [this, hheadD]
  obtain ⟨_, hcover, hpair⟩ := pagesChain_props (pagerOf meas text mw mh base lhf)
    0 text.length hhead0 b3 b4 b5 hpne
  exact ⟨hpne, hhead0, b3, b4, b5,
    fun n hn => hcover n (Nat.zero_le n) hn, hpair⟩

/-- Witness for C4 (amended) at base font size 12 on the text `"ab"`. -/
theorem claim4_pager_partition_witness :
    ((10:ℚ) ≤ 12) ∧ pagerOf (fun _ _ => 0) ['a', 'b'] 100 100 12 1 ≠ [] :=
  ⟨by norm_num,
    (claim4_pager_partition (fun _ _ => 0) ['a', 'b'] 100 100 12 1 (by norm_num)).1⟩

/-! ## Line/offset coherence (claim C5) -/

/-- No paragraph of the text has leading, trailing, or consecutive
spaces (every space-split word is nonempty), and no paragraph is empty. -/
def NoEmptyWords (text : List Char) : Prop :=
  ∀ p ∈ splitChar '\n' text, ∀ w ∈ splitChar ' ' p, w ≠ []

theorem drop_add {α : Type} (l : List α) (a b : ℕ) : l.drop (a + b) = (l.drop a).drop b := by
  induction l generalizing a with
  | nil => simp
  | cons c t ih =>
    cases a with
    | zero => simp
    | succ n =>
      rw [show n + 1 + b = (n + b) + 1 by omega]
      rw [List.drop_succ_cons, List.drop_succ_cons]
      exact ih n

theorem charSplit_substr (meas : List Char → ℚ) (mw : ℚ) (text : List Char) :
    ∀ (w sub : List Char) (ls : ℕ) (X : List Char),
      text.drop ls = sub ++ w ++ X →
      (∀ p ∈ (charSplit meas mw w sub ls).lines.zip (charSplit meas mw w sub ls).idxs,
        p.1 = (text.drop p.2).take p.1.length) ∧
      text.drop (charSplit meas mw w sub ls).lineStart =
        (charSplit meas mw w sub ls).sub ++ X := by
  intro w
  induction w with
  | nil =>
    intro sub ls X hinv
    constructor
    · intro p hp
      simp [charSplit] at hp
    · simpa [charSplit] using hinv
  | cons ch rest ih =>
    intro sub ls X hinv
    have hinv2 : text.drop ls = sub ++ (ch :: (rest ++ X)) := by
      rw [hinv]
      simp
    by_cases hpush : mw < meas (sub ++ [ch])
    · have hgoal : charSplit meas mw (ch :: rest) sub ls =
          ⟨sub :: (charSplit meas mw rest [ch] (ls + sub.length)).lines,
           ls :: (charSplit meas mw rest [ch] (ls + sub.length)).idxs,
           (charSplit meas mw rest [ch] (ls + sub.length)).sub,
           (charSplit meas mw rest [ch] (ls + sub.length)).lineStart⟩ := by
        rw [charSplit, if_pos hpush]
      have hdrop : text.drop (ls + sub.length) = [ch] ++ rest ++ X := by
        rw [drop_add text ls sub.length, hinv2]
        simp [List.drop_left]
      obtain ⟨ihp, ihd⟩ := ih [ch] (ls + sub.length) X hdrop
      rw [hgoal]
      constructor
      · intro p hp
        simp only [List.zip_cons_cons, List.mem_cons] at hp
        rcases hp with hp | hp
        · subst hp
          simp only
          rw [hinv2, List.take_left]
        · exact ihp p hp
      · exact ihd
    · have hgoal : charSplit meas mw (ch :: rest) sub ls =
          charSplit meas mw rest (sub ++ [ch]) ls := by
        rw [charSplit, if_neg hpush]
      have hinv3 : text.drop ls = (sub ++ [ch]) ++ rest ++ X := by
        rw [hinv]
        simp
      obtain ⟨ihp, ihd⟩ := ih (sub ++ [ch]) ls X hinv3
      rw [hgoal]
      exact ⟨ihp, ihd⟩

theorem wrapPara_substr (meas : List Char → ℚ) (mw : ℚ) (text : List Char) :
    ∀ (ws : List (List Char)) (c : List Char) (ls : ℕ) (X : List Char),
      (∀ w ∈ ws, w ≠ []) →
      ((c = [] ∧ text.drop ls = joinC ' ' ws ++ X) ∨
       (c ≠ [] ∧ text.drop ls = c ++ tailGlue ws ++ X)) →
      ∀ p ∈ (wrapPara meas mw ws c ls).1.zip (wrapPara meas mw ws c ls).2,
        p.1 = (text.drop p.2).take p.1.length := by
  intro ws
  induction ws with
  | nil =>
    intro c ls X _ hinv p hp
    simp only [wrapPara, List.zip_cons_cons, List.zip_nil_right,
      List.mem_singleton] at hp
    subst hp
    rcases hinv with ⟨hc, hd⟩ | ⟨hc, hd⟩
    · subst hc
      simp
    · simp only [tailGlue, List.append_nil] at hd
      simp only
      rw [hd, List.take_left]
  | cons w ws ih =>
    intro c ls X hne hinv p hp
    have hw : w ≠ [] := hne w (by simp)
    have hne' : ∀ u ∈ ws, u ≠ [] := fun u hu => hne u (List.mem_cons_of_mem w hu)
    by_cases hc : c = []
    · subst hc
      have hd : text.drop ls = w ++ (tailGlue ws ++ X) := by
        rcases hinv with ⟨_, hd⟩ | ⟨hc', _⟩
        · rw [hd, joinC_cons_eq_tailGlue]
          simp
        · exact absurd rfl hc'
      by_cases hov : mw < meas w
      · have hgoal : wrapPara meas mw (w :: ws) [] ls =
            ((charSplit meas mw w [] ls).lines ++
              (wrapPara meas mw ws (charSplit meas mw w [] ls).sub
                (charSplit meas mw w [] ls).lineStart).1,
             (charSplit meas mw w [] ls).idxs ++
              (wrapPara meas mw ws (charSplit meas mw w [] ls).sub
                (charSplit meas mw w [] ls).lineStart).2) := by
          rw [wrapPara]
          simp only [eq_self_iff_true, if_true]
          rw [if_pos hov]
        have hcsinv : text.drop ls = [] ++ w ++ (tailGlue ws ++ X) := by
          simpa using hd
        obtain ⟨csp, csd⟩ := charSplit_substr meas mw text w [] ls
          (tailGlue ws ++ X) hcsinv
        obtain ⟨cs1, _, _, _, _, _, _, _, cs9, _⟩ := charSplit_facts meas mw w [] ls
        have hsubne : (charSplit meas mw w [] ls).sub ≠ [] := cs9 (Or.inr hw)
        have hrinv : ((charSplit meas mw w [] ls).sub = [] ∧
            text.drop (charSplit meas mw w [] ls).lineStart =
              joinC ' ' ws ++ X) ∨
            ((charSplit meas mw w [] ls).sub ≠ [] ∧
            text.drop (charSplit meas mw w [] ls).lineStart =
              (charSplit meas mw w [] ls).sub ++ tailGlue ws ++ X) := by
          right
          refine ⟨hsubne, ?_⟩
          rw [csd]
          simp
        have hzip : ((charSplit meas mw w [] ls).lines ++
            (wrapPara meas mw ws (charSplit meas mw w [] ls).sub
              (charSplit meas mw w [] ls).lineStart).1).zip
            ((charSplit meas mw w [] ls).idxs ++
             (wrapPara meas mw ws (charSplit meas mw w [] ls).sub
              (charSplit meas mw w [] ls).lineStart).2) =
            (charSplit meas mw w [] ls).lines.zip (charSplit meas mw w [] ls).idxs ++
            (wrapPara meas mw ws (charSplit meas mw w [] ls).sub
              (charSplit meas mw w [] ls).lineStart).1.zip
              (wrapPara meas mw ws (charSplit meas mw w [] ls).sub
                (charSplit meas mw w [] ls).lineStart).2 :=
          List.zip_append cs1.symm
        rw [hgoal] at hp
        rw [hzip, List.mem_append] at hp
        rcases hp with hp | hp
        · exact csp p hp
        · exact ih (charSplit meas mw w [] ls).sub
            (charSplit meas mw w [] ls).lineStart X hne' hrinv p hp
      · have hgoal : wrapPara meas mw (w :: ws) [] ls = wrapPara meas mw ws w ls := by
          rw [wrapPara]
          simp only [eq_self_iff_true, if_true]
          rw [if_neg hov]
        rw [hgoal] at hp
        refine ih w ls X hne' (Or.inr ⟨hw, ?_⟩) p hp
        rw [hd]
        simp
    · have hd : text.drop ls = c ++ ((' ' :: (w ++ tailGlue ws)) ++ X) := by
        rcases hinv with ⟨hc', _⟩ | ⟨_, hd⟩
        · exact absurd hc' hc
        · rw [hd]
          simp [tailGlue]
      by_cases hov : mw < meas (c ++ ' ' :: w)
      · have hgoal : wrapPara meas mw (w :: ws) c ls =
            (c :: (wrapPara meas mw ws w (ls + c.length + 1)).1,
             ls :: (wrapPara meas mw ws w (ls + c.length + 1)).2) := by
          rw [wrapPara]
          simp only [if_neg hc]
          rw [if_pos hov]
        rw [hgoal] at hp
        simp only [List.zip_cons_cons, List.mem_cons] at hp
        rcases hp with hp | hp
        · subst hp
          simp only
          rw [hd, List.take_left]
        · refine ih w (ls + c.length + 1) X hne' (Or.inr ⟨hw, ?_⟩) p hp
          have h1 : text.drop (ls + c.length + 1) =
              ((text.drop ls).drop c.length).drop 1 := by
            rw [← drop_add text ls c.length, ← drop_add text (ls + c.length) 1]
          rw [h1, hd, List.drop_left]
          simp
      · have hgoal : wrapPara meas mw (w :: ws) c ls =
            wrapPara meas mw ws (c ++ ' ' :: w) ls := by
          rw [wrapPara]
          simp only [if_neg hc]
          rw [if_neg hov]
        rw [hgoal] at hp
        refine ih (c ++ ' ' :: w) ls X hne' (Or.inr ⟨by simp, ?_⟩) p hp
        rw [hd]
        simp [tailGlue]

theorem wrapParas_substr (meas : List Char → ℚ) (mw : ℚ) (text : List Char) :
    ∀ (ps : List (List Char)) (cg : ℕ) (X : List Char),
      (∀ q ∈ ps, ∀ w ∈ splitChar ' ' q, w ≠ []) →
      text.drop cg = joinC '\n' ps ++ X →
      ∀ p ∈ (wrapParas meas mw ps cg).1.zip (wrapParas meas mw ps cg).2,
        p.1 = (text.drop p.2).take p.1.length := by
  intro ps
  induction ps with
  | nil =>
    intro cg X _ _ p hp
    simp [wrapParas] at hp
  | cons q ps ih =>
    intro cg X hne hinv p hp
    have hqne : ∀ w ∈ splitChar ' ' q, w ≠ [] := hne q (by simp)
    have hgoal : wrapParas meas mw (q :: ps) cg =
        ((wrapPara meas mw (splitChar ' ' q) [] cg).1 ++
          (wrapParas meas mw ps (cg + q.length + 1)).1,
         (wrapPara meas mw (splitChar ' ' q) [] cg).2 ++
          (wrapParas meas mw ps (cg + q.length + 1)).2) := by
      rw [wrapParas]
    obtain ⟨wp1, wp2, _, _, _, _⟩ := wrapPara_facts meas mw (splitChar ' ' q) [] cg
    have hzip : ((wrapPara meas mw (splitChar ' ' q) [] cg).1 ++
        (wrapParas meas mw ps (cg + q.length + 1)).1).zip
        ((wrapPara meas mw (splitChar ' ' q) [] cg).2 ++
         (wrapParas meas mw ps (cg + q.length + 1)).2) =
        (wrapPara meas mw (splitChar ' ' q) [] cg).1.zip
          (wrapPara meas mw (splitChar ' ' q) [] cg).2 ++
        (wrapParas meas mw ps (cg + q.length + 1)).1.zip
          (wrapParas meas mw ps (cg + q.length + 1)).2 :=
      List.zip_append wp2.symm
    rw [hgoal] at hp
    rw [hzip, List.mem_append] at hp
    cases hps : ps with
    | nil =>
      subst hps
      have hdq : text.drop cg = joinC ' ' (splitChar ' ' q) ++ X := by
        rw [joinC_splitChar]
        simpa [joinC] using hinv
      rcases hp with hp | hp
      · exact wrapPara_substr meas mw text (splitChar ' ' q) [] cg X hqne
          (Or.inl ⟨rfl, hdq⟩) p hp
      · simp [wrapParas] at hp
    | cons x t =>
      subst hps
      have hjq : joinC '\n' (q :: x :: t) = q ++ '\n' :: joinC '\n' (x :: t) := by
        rw [joinC]
      have hinv' : text.drop cg = q ++ (('\n' :: joinC '\n' (x :: t)) ++ X) := by
        rw [hinv, hjq]
        simp
      rcases hp with hp | hp
      · have hdq : text.drop cg = joinC ' ' (splitChar ' ' q) ++
            ('\n' :: joinC '\n' (x :: t) ++ X) := by
          rw [joinC_splitChar, hinv']
        exact wrapPara_substr meas mw text (splitChar ' ' q) [] cg
          ('\n' :: joinC '\n' (x :: t) ++ X) hqne (Or.inl ⟨rfl, hdq⟩) p hp
      · refine ih (cg + q.length + 1) X
          (fun u hu => hne u (List.mem_cons_of_mem q hu)) ?_ p hp
        have h1 : text.drop (cg + q.length + 1) =
            ((text.drop cg).drop q.length).drop 1 := by
          rw [← drop_add text cg q.length, ← drop_add text (cg + q.length) 1]
        rw [h1, hinv', List.drop_left]
        simp

theorem wrapOnce_substr (meas : List Char → ℚ) (mw : ℚ) (text : List Char)
    (hsp : NoEmptyWords text) :
    ∀ p ∈ (wrapOnce meas mw text).1.zip (wrapOnce meas mw text).2,
      p.1 = (text.drop p.2).take p.1.length := by
  apply wrapParas_substr meas mw text (splitChar '\n' text) 0 []
  · exact hsp
  · rw [List.drop_zero, joinC_splitChar]
    simp

/-- C5 counterexample: wrapping `"ab"` in a box too narrow for a single
glyph emits an empty sub-line, so the start offsets are `[0, 0, 1]` —
not strictly increasing as claimed. -/
theorem claim5_counterexample :
    (getWrappedLines (fun _ _ => 5) ['a', 'b'] 1 1000000 12 1).lineStartIndices =
      [0, 0, 1] ∧
    ¬ List.Chain' (· < ·)
      (getWrappedLines (fun _ _ => 5) ['a', 'b'] 1 1000000 12 1).lineStartIndices := by
  have h : (getWrappedLines (fun _ _ => (5:ℚ)) ['a', 'b'] 1 1000000 12 1).lineStartIndices =
      [0, 0, 1] := by
    norm_num [getWrappedLines, wrapLoop, wrapOnce, wrapParas, wrapPara, charSplit,
      splitChar]
  refine ⟨h, ?_⟩
  rw [h]
  intro hch
  exact absurd (List.chain'_cons.mp hch).1 (by omega)

/-- C5 (amended): for base font size at least 10, the layout engine's
start offsets advance by at least the length of each emitted line (in
particular they are non-decreasing; strict increase fails only when an
over-narrow box emits an empty sub-line, see the counterexample), and
for texts without empty words (no leading, trailing or consecutive
spaces and no empty paragraphs) every returned line is exactly the
substring of the input text at its recorded offset. -/
theorem claim5_offsets_substrings (meas : ℚ → List Char → ℚ) (text : List Char)
    (mw mh base lhf : ℚ) (hb : 10 ≤ base) (hsp : NoEmptyWords text) :
    (∀ k, k + 1 < (getWrappedLines meas text mw mh base lhf).lineStartIndices.length →
      (getWrappedLines meas text mw mh base lhf).lineStartIndices.getD k 0 +
        ((getWrappedLines meas text mw mh base lhf).lines.getD k []).length ≤
      (getWrappedLines meas text mw mh base lhf).lineStartIndices.getD (k + 1) 0) ∧
    (∀ p ∈ (getWrappedLines meas text mw mh base lhf).lines.zip
        (getWrappedLines meas text mw mh base lhf).lineStartIndices,
      p.1 = (text.drop p.2).take p.1.length) := by
  obtain ⟨g, hg1, hg2⟩ := getWrappedLines_out meas text mw mh lhf base hb
  obtain ⟨_, w2, _, w4, _⟩ := wrapOnce_facts (meas g) mw text
  constructor
  · intro k hk
    rw [hg1, hg2] at *
    exact (chain_zip_adj _ _ w2 w4 k (by rw [← hg2]; exact hk)).1
  · intro p hp
    rw [hg1, hg2] at hp
    exact wrapOnce_substr (meas g) mw text hsp p hp

/-- Witness for C5 (amended) on the text `"ab cd"` at base size 12. -/
theorem claim5_offsets_substrings_witness :
    (((10:ℚ) ≤ 12) ∧ NoEmptyWords ['a', 'b', ' ', 'c', 'd']) ∧
    (∀ p ∈ (getWrappedLines (fun _ _ => 0) ['a', 'b', ' ', 'c', 'd'] 100 100 12 1).lines.zip
        (getWrappedLines (fun _ _ => 0) ['a', 'b', ' ', 'c', 'd'] 100 100 12 1).lineStartIndices,
      p.1 = ((['a', 'b', ' ', 'c', 'd'] : List Char).drop p.2).take p.1.length) :=
  ⟨⟨by norm_num, by unfold NoEmptyWords; decide⟩,
    (claim5_offsets_substrings (fun _ _ => 0) ['a', 'b', ' ', 'c', 'd'] 100 100 12 1
      (by norm_num) (by unfold NoEmptyWords; decide)).2⟩

/-- The crafted measure for the C8 counterexample: wider joined runs can
measure narrower than their sub-runs, which the canvas `measureText`
never promises not to do from the wrap loop's point of view. -/
def cexMeas (w : List Char) : ℚ :=
  if w = ['a', ' ', 'b'] then 10
  else if w = ['a', ' ', 'b', ' ', 'c'] then 100
  else if w = ['c', ' ', 'd'] then 100
  else if w = ['d', ' ', 'e'] then 100
  else if w = ['b', ' ', 'c'] then 2
  else if w = ['b', ' ', 'c', ' ', 'd'] then 3
  else if w = ['b', ' ', 'c', ' ', 'd', ' ', 'e'] then 4
  else 1

set_option maxHeartbeats 2000000 in
/-- C8 counterexample: for the text "a b c d e" under the measure
`cexMeas`, the wrap at the wider width 10 produces 4 lines while the
wrap at the narrower width 5 produces only 2, so narrowing the
available width strictly decreased the line count. -/
theorem claim8_counterexample :
    (getWrappedLines (fun _ w => cexMeas w) ['a', ' ', 'b', ' ', 'c', ' ', 'd', ' ', 'e']
      10 1000000 12 1).lines.length = 4 ∧
    (getWrappedLines (fun _ w => cexMeas w) ['a', ' ', 'b', ' ', 'c', ' ', 'd', ' ', 'e']
      5 1000000 12 1).lines.length = 2 := by
  constructor
  · simp +decide [getWrappedLines, wrapLoop, wrapOnce, wrapParas, wrapPara, charSplit,
      splitChar, cexMeas]
    norm_num
  · simp +decide [getWrappedLines, wrapLoop, wrapOnce, wrapParas, wrapPara, charSplit,
      splitChar, cexMeas]
    norm_num

/-- The words of one paragraph between positions `p` and `m`, joined
with single spaces: the value of `currentLine` when the word loop has
absorbed words `p, ..., m-1` into the line that started at word `p`. -/
def sliceW (L : List (List Char)) (p m : ℕ) : List Char :=
  joinC ' ' ((L.drop p).take (m - p))

/-- Line count of the word loop from word `m` on, with the current line
holding words `p, ..., m-1` (fuel-indexed; `wpN` only counts pushes, so
it is independent of the start offsets). When the joined slice is empty
— the line start was a lone empty word — the loop takes the empty
`currentLine` branch again and the line restarts at word `m` without a
push. -/
def wpN (meas : List Char → ℚ) (W : ℚ) (L : List (List Char)) : ℕ → ℕ → ℕ → ℕ
  | 0, _, _ => 1
  | fuel + 1, p, m =>
    if m < L.length then
      if sliceW L p m = [] then wpN meas W L fuel m (m + 1)
      else if W < meas (sliceW L p (m + 1)) then 1 + wpN meas W L fuel m (m + 1)
      else wpN meas W L fuel p (m + 1)
    else 1

theorem tailGlue_append (xs ys : List (List Char)) :
    tailGlue (xs ++ ys) = tailGlue xs ++ tailGlue ys := by
  induction xs with
  | nil => simp [tailGlue]
  | cons w t ih => simp [tailGlue, ih]

theorem joinC_space_append (xs ys : List (List Char)) (hx : xs ≠ []) (hy : ys ≠ []) :
    joinC ' ' (xs ++ ys) = joinC ' ' xs ++ ' ' :: joinC ' ' ys := by
  cases xs with
  | nil => exact absurd rfl hx
  | cons w xs =>
    cases ys with
    | nil => exact absurd rfl hy
    | cons y t =>
      rw [List.cons_append, joinC_cons_eq_tailGlue, tailGlue_append,
        joinC_cons_eq_tailGlue, joinC_cons_eq_tailGlue]
      simp [tailGlue]

theorem drop_eq_getD_cons (L : List (List Char)) (m : ℕ) (h : m < L.length) :
    L.drop m = L.getD m [] :: L.drop (m + 1) := by
  induction L generalizing m with
  | nil => simp at h
  | cons a t ih =>
    cases m with
    | zero => simp
    | succ k =>
      have hk : k < t.length := by simpa using h
      simpa [List.getD] using ih k hk

theorem sliceW_single (L : List (List Char)) (m : ℕ) (h : m < L.length) :
    sliceW L m (m + 1) = L.getD m [] := by
  rw [sliceW, show m + 1 - m = 1 from by omega, drop_eq_getD_cons L m h]
  simp [joinC]

theorem sliceW_take_ne_nil (L : List (List Char)) (p k : ℕ)
    (hk : 0 < k) (hp : p < L.length) : (L.drop p).take k ≠ [] := by
  have hl : 0 < ((L.drop p).take k).length := by
    simp only [List.length_take, List.length_drop]
    omega
  exact List.length_pos.mp hl

theorem sliceW_succ (L : List (List Char)) (p m : ℕ) (hpm : p < m)
    (hmn : m < L.length) :
    sliceW L p (m + 1) = sliceW L p m ++ ' ' :: L.getD m [] := by
  have h1 : m + 1 - p = (m - p) + 1 := by omega
  have h2 : (L.drop p).take ((m - p) + 1) =
      (L.drop p).take (m - p) ++ (L.drop m).take 1 := by
    rw [List.take_add, ← drop_add, show p + (m - p) = m from by omega]
  have hA : (L.drop p).take (m - p) ≠ [] :=
    sliceW_take_ne_nil L p (m - p) (by omega) (by omega)
  rw [sliceW, h1, h2, drop_eq_getD_cons L m hmn,
    show (L.getD m [] :: L.drop (m + 1)).take 1 = [L.getD m []] from by simp,
    joinC_space_append _ _ hA (by simp), sliceW]
  simp [joinC]

theorem sliceW_ne_nil (L : List (List Char)) (hne : ∀ w ∈ L, w ≠ [])
    (p m : ℕ) (hpm : p < m) (hpn : p < L.length) :
    sliceW L p m ≠ [] := by
  have hw : L.getD p [] ≠ [] := by
    refine hne _ (List.drop_subset p L ?_)
    rw [drop_eq_getD_cons L p hpn]
    exact List.mem_cons_self _ _
  rw [sliceW, drop_eq_getD_cons L p hpn,
    show m - p = (m - p - 1) + 1 from by omega, List.take_succ_cons,
    joinC_cons_eq_tailGlue]
  intro hcon
  exact hw (List.append_eq_nil.mp hcon).1

theorem sliceW_ne_nil_of_lt (L : List (List Char)) (p m : ℕ)
    (h : p + 1 < m) (hm : m ≤ L.length) : sliceW L p m ≠ [] := by
  have hl : ((L.drop p).take (m - p)).length = min (m - p) (L.length - p) := by
    simp [List.length_take, List.length_drop]
  rw [sliceW]
  cases hsl : (L.drop p).take (m - p) with
  | nil =>
    rw [hsl] at hl
    simp at hl
    omega
  | cons w rest =>
    cases rest with
    | nil =>
      rw [hsl] at hl
      simp at hl
      omega
    | cons x rest2 =>
      rw [joinC]
      intro hcon
      exact absurd (List.append_eq_nil.mp hcon).2 (by simp)

theorem meas_sliceW_mono (meas : List Char → ℚ)
    (hmono : ∀ a b c, meas b ≤ meas (a ++ b ++ c))
    (L : List (List Char)) (p2 p1 m : ℕ)
    (h21 : p2 ≤ p1) (h1m : p1 < m) (hmn : m ≤ L.length) :
    meas (sliceW L p1 m) ≤ meas (sliceW L p2 m) := by
  rcases eq_or_lt_of_le h21 with heq | hlt
  · rw [heq]
  · have hsplit : (L.drop p2).take (m - p2) =
        (L.drop p2).take (p1 - p2) ++ (L.drop p1).take (m - p1) := by
      rw [show m - p2 = (p1 - p2) + (m - p1) from by omega, List.take_add,
        ← drop_add, show p2 + (p1 - p2) = p1 from by omega]
    have hA : (L.drop p2).take (p1 - p2) ≠ [] :=
      sliceW_take_ne_nil L p2 (p1 - p2) (by omega) (by omega)
    have hB : (L.drop p1).take (m - p1) ≠ [] :=
      sliceW_take_ne_nil L p1 (m - p1) (by omega) (by omega)
    have hjoin : sliceW L p2 m =
        (joinC ' ' ((L.drop p2).take (p1 - p2)) ++ [' ']) ++ sliceW L p1 m ++ [] := by
      rw [sliceW, hsplit, joinC_space_append _ _ hA hB, sliceW]
      simp
    rw [hjoin]
    exact hmono _ _ _

theorem wrapPara_len_eq (meas : List Char → ℚ) (W : ℚ) (L : List (List Char))
    (hfit : ∀ w ∈ L, meas w ≤ W) :
    ∀ (fuel m p ls : ℕ), L.length ≤ m + fuel → p < m → m ≤ L.length →
      (wrapPara meas W (L.drop m) (sliceW L p m) ls).1.length =
        wpN meas W L fuel p m := by
  intro fuel
  induction fuel with
  | zero =>
    intro m p ls hfuel hpm hmn
    have hm : m = L.length := by omega
    subst hm
    rw [List.drop_length]
    simp [wrapPara, wpN]
  | succ fuel ih =>
    intro m p ls hfuel hpm hmn
    by_cases hmn' : m < L.length
    · have hdrop : L.drop m = L.getD m [] :: L.drop (m + 1) :=
        drop_eq_getD_cons L m hmn'
      have hgdmem : L.getD m [] ∈ L := by
        refine List.drop_subset m L ?_
        rw [hdrop]
        exact List.mem_cons_self _ _
      have hgd : L.getD m [] = sliceW L m (m + 1) := (sliceW_single L m hmn').symm
      by_cases hc : sliceW L p m = []
      · have hnov : ¬ (W < meas (L.getD m [])) := not_lt.mpr (hfit _ hgdmem)
        rw [hdrop, wrapPara]
        simp only [if_pos hc]
        rw [if_neg hnov, wpN, if_pos hmn', if_pos hc, hgd]
        exact ih (m + 1) m ls (by omega) (by omega) (by omega)
      · rw [hdrop, wrapPara]
        simp only [if_neg hc]
        rw [← sliceW_succ L p m hpm hmn', wpN, if_pos hmn', if_neg hc]
        by_cases hov : W < meas (sliceW L p (m + 1))
        · rw [if_pos hov, if_pos hov, hgd]
          simp only [List.length_cons]
          rw [ih (m + 1) m _ (by omega) (by omega) (by omega)]
          omega
        · rw [if_neg hov, if_neg hov]
          exact ih (m + 1) p _ (by omega) (by omega) (by omega)
    · have hm : m = L.length := by omega
      subst hm
      rw [List.drop_length, wrapPara, wpN, if_neg hmn']
      simp

theorem wrapPara_entry_len (meas : List Char → ℚ) (W : ℚ) (w : List Char)
    (ws : List (List Char)) (hfit : ∀ u ∈ w :: ws, meas u ≤ W) (ls : ℕ) :
    (wrapPara meas W (w :: ws) [] ls).1.length =
      wpN meas W (w :: ws) (w :: ws).length 0 1 := by
  have hnov : ¬ (W < meas w) := not_lt.mpr (hfit w (by simp))
  rw [wrapPara]
  simp only [eq_self_iff_true, if_true]
  rw [if_neg hnov]
  have heq := wrapPara_len_eq meas W (w :: ws) hfit (w :: ws).length 1 0 ls
    (by omega) (by omega) (by rw [List.length_cons]; omega)
  simpa [sliceW, joinC] using heq

theorem wpN_mono (meas : List Char → ℚ) (w1 w2 : ℚ) (L : List (List Char))
    (hW : w2 ≤ w1) (hmono : ∀ a b c, meas b ≤ meas (a ++ b ++ c)) :
    ∀ (fuel m p1 p2 : ℕ), p1 < m → p2 < m → m ≤ L.length →
      ((p2 ≤ p1 → wpN meas w1 L fuel p1 m ≤ wpN meas w2 L fuel p2 m) ∧
       wpN meas w1 L fuel p1 m ≤ 1 + wpN meas w2 L fuel p2 m) := by
  intro fuel
  induction fuel with
  | zero =>
    intro m p1 p2 h1 h2 hm
    exact ⟨fun _ => Nat.le_refl 1, Nat.le_succ 1⟩
  | succ fuel ih =>
    intro m p1 p2 h1 h2 hm
    by_cases hmn : m < L.length
    · by_cases he1 : sliceW L p1 m = []
      · by_cases he2 : sliceW L p2 m = []
        · rw [wpN, wpN, if_pos hmn, if_pos hmn, if_pos he1, if_pos he2]
          constructor
          · intro hp
            exact (ih (m + 1) m m (by omega) (by omega) (by omega)).1 (le_refl m)
          · exact (ih (m + 1) m m (by omega) (by omega) (by omega)).2
        · constructor
          · intro hp
            by_cases hc2 : w2 < meas (sliceW L p2 (m + 1))
            · rw [wpN, wpN, if_pos hmn, if_pos hmn, if_pos he1, if_neg he2, if_pos hc2]
              have hih := (ih (m + 1) m m (by omega) (by omega) (by omega)).2
              omega
            · rw [wpN, wpN, if_pos hmn, if_pos hmn, if_pos he1, if_neg he2, if_neg hc2]
              exact (ih (m + 1) m p2 (by omega) (by omega) (by omega)).1 (by omega)
          · by_cases hc2 : w2 < meas (sliceW L p2 (m + 1))
            · rw [wpN, wpN, if_pos hmn, if_pos hmn, if_pos he1, if_neg he2, if_pos hc2]
              have hih := (ih (m + 1) m m (by omega) (by omega) (by omega)).2
              omega
            · rw [wpN, wpN, if_pos hmn, if_pos hmn, if_pos he1, if_neg he2, if_neg hc2]
              have hih := (ih (m + 1) m p2 (by omega) (by omega) (by omega)).1 (by omega)
              omega
      · by_cases he2 : sliceW L p2 m = []
        · constructor
          · intro hp
            exfalso
            have hb : m = p2 + 1 := by
              by_contra hne'
              exact (sliceW_ne_nil_of_lt L p2 m (by omega) hm) he2
            have hp12 : p1 = p2 := by omega
            rw [hp12] at he1
            exact he1 he2
          · by_cases hc1 : w1 < meas (sliceW L p1 (m + 1))
            · rw [wpN, wpN, if_pos hmn, if_pos hmn, if_neg he1, if_pos hc1, if_pos he2]
              have hih := (ih (m + 1) m m (by omega) (by omega) (by omega)).1 (le_refl m)
              omega
            · rw [wpN, wpN, if_pos hmn, if_pos hmn, if_neg he1, if_neg hc1, if_pos he2]
              have hih := (ih (m + 1) p1 m (by omega) (by omega) (by omega)).2
              omega
        · by_cases hc1 : w1 < meas (sliceW L p1 (m + 1))
          · constructor
            · intro hp
              have hms : meas (sliceW L p1 (m + 1)) ≤ meas (sliceW L p2 (m + 1)) :=
                meas_sliceW_mono meas hmono L p2 p1 (m + 1) hp (by omega) (by omega)
              have hc2 : w2 < meas (sliceW L p2 (m + 1)) :=
                lt_of_le_of_lt hW (lt_of_lt_of_le hc1 hms)
              rw [wpN, wpN, if_pos hmn, if_pos hmn, if_neg he1, if_neg he2,
                if_pos hc1, if_pos hc2]
              have hih := (ih (m + 1) m m (by omega) (by omega) (by omega)).1 (le_refl m)
              omega
            · by_cases hc2 : w2 < meas (sliceW L p2 (m + 1))
              · rw [wpN, wpN, if_pos hmn, if_pos hmn, if_neg he1, if_neg he2,
                  if_pos hc1, if_pos hc2]
                have hih := (ih (m + 1) m m (by omega) (by omega) (by omega)).2
                omega
              · rw [wpN, wpN, if_pos hmn, if_pos hmn, if_neg he1, if_neg he2,
                  if_pos hc1, if_neg hc2]
                have hih := (ih (m + 1) m p2 (by omega) (by omega) (by omega)).1 (by omega)
                omega
          · constructor
            · intro hp
              by_cases hc2 : w2 < meas (sliceW L p2 (m + 1))
              · rw [wpN, wpN, if_pos hmn, if_pos hmn, if_neg he1, if_neg he2,
                  if_neg hc1, if_pos hc2]
                have hih := (ih (m + 1) p1 m (by omega) (by omega) (by omega)).2
                omega
              · rw [wpN, wpN, if_pos hmn, if_pos hmn, if_neg he1, if_neg he2,
                  if_neg hc1, if_neg hc2]
                exact (ih (m + 1) p1 p2 (by omega) (by omega) (by omega)).1 hp
            · by_cases hc2 : w2 < meas (sliceW L p2 (m + 1))
              · rw [wpN, wpN, if_pos hmn, if_pos hmn, if_neg he1, if_neg he2,
                  if_neg hc1, if_pos hc2]
                have hih := (ih (m + 1) p1 m (by omega) (by omega) (by omega)).2
                omega
              · rw [wpN, wpN, if_pos hmn, if_pos hmn, if_neg he1, if_neg he2,
                  if_neg hc1, if_neg hc2]
                have hih := (ih (m + 1) p1 p2 (by omega) (by omega) (by omega)).2
                omega
    · rw [wpN, wpN, if_neg hmn, if_neg hmn]
      exact ⟨fun _ => Nat.le_refl 1, Nat.le_succ 1⟩

theorem wrapPara_len_mono (meas : List Char → ℚ) (w1 w2 : ℚ)
    (hW : w2 ≤ w1) (hmono : ∀ a b c, meas b ≤ meas (a ++ b ++ c))
    (L : List (List Char)) (hfit : ∀ w ∈ L, meas w ≤ w2)
    (ls1 ls2 : ℕ) :
    (wrapPara meas w1 L [] ls1).1.length ≤ (wrapPara meas w2 L [] ls2).1.length := by
  cases L with
  | nil => simp [wrapPara]
  | cons w ws =>
    have hfit1 : ∀ u ∈ w :: ws, meas u ≤ w1 := fun u hu => le_trans (hfit u hu) hW
    rw [wrapPara_entry_len meas w1 w ws hfit1 ls1,
      wrapPara_entry_len meas w2 w ws hfit ls2]
    exact (wpN_mono meas w1 w2 (w :: ws) hW hmono (w :: ws).length 1 0 0
      (by omega) (by omega) (by rw [List.length_cons]; omega)).1 (le_refl 0)

theorem wrapParas_len_mono (meas : List Char → ℚ) (w1 w2 : ℚ)
    (hW : w2 ≤ w1) (hmono : ∀ a b c, meas b ≤ meas (a ++ b ++ c)) :
    ∀ (ps : List (List Char)) (cg1 cg2 : ℕ),
      (∀ p ∈ ps, ∀ u ∈ splitChar ' ' p, meas u ≤ w2) →
      (wrapParas meas w1 ps cg1).1.length ≤ (wrapParas meas w2 ps cg2).1.length := by
  intro ps
  induction ps with
  | nil =>
    intro cg1 cg2 _
    simp [wrapParas]
  | cons q ps ih =>
    intro cg1 cg2 hfit
    rw [wrapParas, wrapParas]
    simp only [List.length_append]
    have h1 := wrapPara_len_mono meas w1 w2 hW hmono (splitChar ' ' q)
      (hfit q (by simp)) cg1 cg2
    have h2 := ih (cg1 + q.length + 1) (cg2 + q.length + 1)
      (fun p hp => hfit p (List.mem_cons_of_mem q hp))
    omega

theorem getWrappedLines_base10 (meas : ℚ → List Char → ℚ) (text : List Char)
    (mw mh lhf : ℚ) :
    (getWrappedLines meas text mw mh 10 lhf).lines = (wrapOnce (meas 10) mw text).1 := by
  rw [getWrappedLines]
  norm_num [wrapLoop]

/-- C8 (amended): the width-monotonicity of the line count does not
hold for arbitrary measures (see the counterexample), but it does hold
for one wrap pass of the engine — here at the base font size 10, where
`getWrappedLines` returns the single pass unconditionally — whenever
the measure is substring-monotone (a string never measures wider than
any extension of it on both sides) and every word of the text fits the
narrower width: then narrowing the width from `mw1` to `mw2 ≤ mw1`
never decreases the returned line count. -/
theorem claim8_width_monotone (meas : ℚ → List Char → ℚ) (text : List Char)
    (mw1 mw2 mh1 mh2 lhf : ℚ)
    (hW : mw2 ≤ mw1)
    (hmono : ∀ a b c, meas 10 b ≤ meas 10 (a ++ b ++ c))
    (hfit : ∀ p ∈ splitChar '\n' text, ∀ u ∈ splitChar ' ' p, meas 10 u ≤ mw2) :
    (getWrappedLines meas text mw1 mh1 10 lhf).lines.length ≤
      (getWrappedLines meas text mw2 mh2 10 lhf).lines.length := by
  rw [getWrappedLines_base10, getWrappedLines_base10, wrapOnce, wrapOnce]
  exact wrapParas_len_mono (meas 10) mw1 mw2 hW hmono (splitChar '\n' text) 0 0 hfit

/-- Witness for C8 (amended) on the text "ab  c" (with a double space,
so the word list contains an empty word) under the constant-zero
measure and widths 3 and 2. -/
theorem claim8_width_monotone_witness :
    ((2 : ℚ) ≤ 3) ∧
    (getWrappedLines (fun _ _ => 0) ['a', 'b', ' ', ' ', 'c'] 3 100 10 1).lines.length ≤
      (getWrappedLines (fun _ _ => 0) ['a', 'b', ' ', ' ', 'c'] 2 100 10 1).lines.length :=
  ⟨by norm_num,
    claim8_width_monotone (fun _ _ => 0) ['a', 'b', ' ', ' ', 'c'] 3 2 100 100 1
      (by norm_num) (fun a b c => by norm_num) (fun p hp u hu => by norm_num)⟩

end SmartVoice
